import Mathlib

/-!
Verification of the repository's two components against its specification:
the 3x3 tic-tac-toe minimax search (`src/week0/tictactoe/tictactoe.py`) and
the Minesweeper inference engine (`src/week1/minesweeper/minesweeper.py`).
The Python code is shallowly embedded: pure functions become Lean functions,
the stateful `MinesweeperAI` object becomes explicit state passing over an
`AI` structure, Python exceptions become `Except`, and Python `int` becomes
`Int` (with Python's negative-index list semantics modelled explicitly where
the code relies on built-in indexing).
-/

namespace TTT

/-- A player mark on the board (`X` / `O` in the source). -/
inductive Player where
  | X : Player
  | O : Player
deriving DecidableEq, Repr

/-- A board cell: `EMPTY` is `none`. -/
abbrev Cell := Option Player

/-- A board is a list of rows, as the Python list-of-lists. -/
abbrev Board := List (List Cell)

/-- `initial_state()`: the empty 3x3 board. -/
def initial_state : Board :=
  [[none, none, none], [none, none, none], [none, none, none]]

/-- `sum(row.count(EMPTY) for row in board)`. -/
def countEmpty (b : Board) : Nat :=
  (b.map (fun row => row.count none)).sum

/-- `player(board)`: `X` if `(9 - iEmptyFields) % 2 == 0` else `O`. -/
def player (b : Board) : Player :=
  if ((9 : Int) - countEmpty b) % 2 = 0 then Player.X else Player.O

/-- `actions(board)`: the row-major list of coordinates of empty cells. -/
def actions (b : Board) : List (Nat × Nat) :=
  (b.enum.map (fun p =>
    p.2.enum.filterMap (fun q =>
      if q.2 = none then some (p.1, q.1) else none))).flatten

/-- Cell lookup `board[i][j]` for in-range natural indices. -/
def cellAt (b : Board) (i j : Nat) : Cell :=
  ((b.getD i []).getD j none)

/-- Python list indexing semantics: a negative index within `-len .. -1`
wraps around to the end of the list; anything further out is an
`IndexError` (modelled as `none`). -/
def pyIdx {α : Type} (l : List α) (i : Int) : Option α :=
  if 0 ≤ i ∧ i < (l.length : Int) then l[i.toNat]?
  else if -(l.length : Int) ≤ i ∧ i < 0 then l[(i + l.length).toNat]?
  else none

/-- Python list assignment `l[i] = a` at an index already known valid:
negative indices wrap as in `pyIdx`. -/
def pySet {α : Type} (l : List α) (i : Int) (a : α) : List α :=
  if 0 ≤ i then l.set i.toNat a else l.set (i + l.length).toNat a

/-- The two ways `result` can fail: the explicit `IllegalMoveError` raised
by the source, and the `IndexError` Python itself raises on an index
outside `[-3, 3)`. -/
inductive MoveError where
  | illegalMove : MoveError
  | indexError : MoveError
deriving DecidableEq, Repr

/-- `result(board, action)`: raises `IllegalMoveError` when the target cell
is occupied, otherwise returns a deep copy of the board with the cell set
to the current player.  Index accesses `board[i][j]` follow Python
semantics (`pyIdx`), so negative indices wrap. -/
def result (b : Board) (action : Int × Int) : Except MoveError Board :=
  let turn := player b
  match pyIdx b action.1 with
  | none => Except.error MoveError.indexError
  | some row =>
    match pyIdx row action.2 with
    | none => Except.error MoveError.indexError
    | some v =>
      if v ≠ none then Except.error MoveError.illegalMove
      else Except.ok (pySet b action.1 (pySet row action.2 (some turn)))

/-- One check of `board[i][0] == board[i][1] == board[i][2] == player` /
the column analogue, as in the source's row-and-column loop body. -/
def rowColWin (b : Board) (p : Player) (i : Nat) : Prop :=
  (cellAt b i 0 = some p ∧ cellAt b i 1 = some p ∧ cellAt b i 2 = some p) ∨
  (cellAt b 0 i = some p ∧ cellAt b 1 i = some p ∧ cellAt b 2 i = some p)

instance (b : Board) (p : Player) (i : Nat) : Decidable (rowColWin b p i) := by
  unfold rowColWin; infer_instance

/-- The full line scan `utility` performs for one player: rows and columns
for `i = 0, 1, 2`, then the two diagonals, in source order. -/
def wins (b : Board) (p : Player) : Prop :=
  rowColWin b p 0 ∨ rowColWin b p 1 ∨ rowColWin b p 2 ∨
  (cellAt b 0 0 = some p ∧ cellAt b 1 1 = some p ∧ cellAt b 2 2 = some p) ∨
  (cellAt b 0 2 = some p ∧ cellAt b 1 1 = some p ∧ cellAt b 2 0 = some p)

instance (b : Board) (p : Player) : Decidable (wins b p) := by
  unfold wins; infer_instance

/-- `utility(board)`: the source loops over `[X, O]` in that order and
returns on the first player with a completed line, so a board where both
players have lines scores `+1`. -/
def utility (b : Board) : Int :=
  if wins b Player.X then 1 else if wins b Player.O then -1 else 0

/-- `winner(board)`: decodes `utility`. -/
def winner (b : Board) : Option Player :=
  let win := utility b
  if win = 1 then some Player.X
  else if win = -1 then some Player.O
  else none

/-- `terminal(board)`: someone has won, or the board is full. -/
def terminal (b : Board) : Bool :=
  if utility b ≠ 0 then true
  else if countEmpty b = 0 then true
  else false

mutual

/-- `minValue(board)` from the source, with a fuel argument standing for
the recursion depth Python obtains for free; on a board with at most
`fuel - 1` empty cells the fuel never runs out.  `5` is the source's
sentinel initial value, also returned on fuel exhaustion (unreachable at
the fuels used below). -/
def minValue : Nat → Board → Int
  | 0, _ => 5
  | fuel + 1, b =>
    if terminal b then utility b
    else
      (actions b).foldl (fun val a =>
        match result b ((a.1 : Int), (a.2 : Int)) with
        | Except.ok b2 => min val (maxValue fuel b2)
        | Except.error _ => val) 5

/-- `maxValue(board)`, fuelled like `minValue`; `-5` is the source's
sentinel. -/
def maxValue : Nat → Board → Int
  | 0, _ => -5
  | fuel + 1, b =>
    if terminal b then utility b
    else
      (actions b).foldl (fun val a =>
        match result b ((a.1 : Int), (a.2 : Int)) with
        | Except.ok b2 => max val (minValue fuel b2)
        | Except.error _ => val) (-5)

end

/-- `minimax(board)`: `none` on a terminal board; otherwise scans the legal
moves keeping the first strict improvement over the sentinel (`-5` for `X`
maximizing, `5` for `O` minimizing).  The inner value calls receive fuel
`9`, enough for any child board (which has at most 8 empty cells). -/
def minimax (b : Board) : Option (Nat × Nat) :=
  if terminal b then none
  else
    let possibleActions := actions b
    if player b = Player.X then
      (possibleActions.foldl (fun acc a =>
        match result b ((a.1 : Int), (a.2 : Int)) with
        | Except.ok b2 =>
          let val := minValue 9 b2
          if acc.1 < val then (val, some a) else acc
        | Except.error _ => acc) ((-5 : Int), none)).2
    else
      (possibleActions.foldl (fun acc a =>
        match result b ((a.1 : Int), (a.2 : Int)) with
        | Except.ok b2 =>
          let val := maxValue 9 b2
          if val < acc.1 then (val, some a) else acc
        | Except.error _ => acc) ((5 : Int), none)).2

/-- Renormalizes a 3x3 board into a literal list-of-lists (returns `none`
for boards of any other shape).  `norm3 b = some b2` implies `b2 = b`; it is
used by the certificate checkers below to keep board terms in constructor
form during evaluation. -/
def norm3 (b : Board) : Option Board :=
  match b with
  | [[a0, a1, a2], [a3, a4, a5], [a6, a7, a8]] =>
    some [[a0, a1, a2], [a3, a4, a5], [a6, a7, a8]]
  | _ => none

/-- The board obtained by writing mark `p` at `(i, j)`; for an in-range
empty cell this is exactly the board `result` returns (see
`result_eq_place` below). -/
def place (b : Board) (i j : Nat) (p : Player) : Board :=
  b.set i ((b.getD i []).set j (some p))

/-- Reorders a move list to try the center and corners first; used only on
the exists-side of the certificate checkers (the successful move's
membership in the original list is all soundness needs). -/
def prefOrder (l : List (Nat × Nat)) : List (Nat × Nat) :=
  [(1, 1), (0, 0), (0, 2), (2, 0), (2, 2),
   (0, 1), (1, 0), (1, 2), (2, 1)].filter (fun a => a ∈ l)

/-- Tries continuation `k` on the renormalized board obtained by playing
mark `p` at `a`; conservatively `false` if the board shape is not 3x3. -/
def tryChild (k : Board → Bool) (b : Board) (p : Player) (a : Nat × Nat) : Bool :=
  match norm3 (place b a.1 a.2 p) with
  | some b3 => k b3
  | none => false

/-- Certificate checker for lower bounds on the game values: `geC fuel true
b v = true` certifies `v ≤ maxValue fuel b`, and `geC fuel false b v = true`
certifies `v ≤ minValue fuel b` (soundness is proved below).  At a
maximizing node one sufficient child is enough (`any`); at a minimizing
node the bound must hold for the fold's initial sentinel `5` and all
children (`all`).  The current player is matched to a literal constructor
so that every board built during checking stays in constructor form. -/
def geC : Nat → Bool → Board → Int → Bool
  | 0, isMax, _, v => decide (v ≤ if isMax then (-5 : Int) else 5)
  | fuel + 1, isMax, b, v =>
    if terminal b then decide (v ≤ utility b)
    else
      match player b with
      | Player.X =>
        if isMax then
          (prefOrder (actions b)).any (tryChild (fun b3 => geC fuel false b3 v) b Player.X)
        else
          decide (v ≤ (5 : Int)) &&
          (actions b).all (tryChild (fun b3 => geC fuel true b3 v) b Player.X)
      | Player.O =>
        if isMax then
          (prefOrder (actions b)).any (tryChild (fun b3 => geC fuel false b3 v) b Player.O)
        else
          decide (v ≤ (5 : Int)) &&
          (actions b).all (tryChild (fun b3 => geC fuel true b3 v) b Player.O)

/-- The nine boards reachable from the empty board in one move (X at each
cell); `cb i j` is the board `result initial_state (i, j)` returns. -/
def cb (i j : Nat) : Board :=
  place initial_state i j Player.X

/-- Certificate checker for upper bounds, dual to `geC`: `leC fuel true b v
= true` certifies `maxValue fuel b ≤ v` and `leC fuel false b v = true`
certifies `minValue fuel b ≤ v`. -/
def leC : Nat → Bool → Board → Int → Bool
  | 0, isMax, _, v => decide ((if isMax then (-5 : Int) else 5) ≤ v)
  | fuel + 1, isMax, b, v =>
    if terminal b then decide (utility b ≤ v)
    else
      match player b with
      | Player.X =>
        if isMax then
          decide ((-5 : Int) ≤ v) &&
          (actions b).all (tryChild (fun b3 => leC fuel false b3 v) b Player.X)
        else
          (prefOrder (actions b)).any (tryChild (fun b3 => leC fuel true b3 v) b Player.X)
      | Player.O =>
        if isMax then
          decide ((-5 : Int) ≤ v) &&
          (actions b).all (tryChild (fun b3 => leC fuel false b3 v) b Player.O)
        else
          (prefOrder (actions b)).any (tryChild (fun b3 => leC fuel true b3 v) b Player.O)

/-- The grid of the spec's minimax blocking test:
`[[X, X, None], [O, O, None], [None, None, None]]`. -/
def bC5 : Board :=
  [[some Player.X, some Player.X, none],
   [some Player.O, some Player.O, none],
   [none, none, none]]

/-- A grid in which both players have a completed row (unreachable in
legal play, but accepted by the public functions). -/
def bothWin : Board :=
  [[some Player.X, some Player.X, some Player.X],
   [some Player.O, some Player.O, some Player.O],
   [none, none, none]]

end TTT

namespace MS

/-- A board cell, a `(row, column)` pair.  `add_knowledge` only ever builds
in-bounds cells, so natural-number coordinates suffice. -/
abbrev Cell := Nat × Nat

/-- `Sentence(cells, count)`: a set of board cells and a count of how many
of them are mines.  `count` is an `Int` because the Python code can drive
it negative on inconsistent inputs (`mark_mine`, subset subtraction). -/
structure Sentence where
  cells : Finset Cell
  count : Int
deriving DecidableEq

instance : Inhabited Sentence := ⟨⟨∅, 0⟩⟩

/-- `Sentence.known_mines`: `cells` when `len(cells) == count`, else the
empty set. -/
def Sentence.known_mines (s : Sentence) : Finset Cell :=
  if (s.cells.card : Int) ≠ s.count then ∅ else s.cells

/-- `Sentence.known_safes`: `cells` when `count == 0`, else the empty
set. -/
def Sentence.known_safes (s : Sentence) : Finset Cell :=
  if s.count ≠ 0 then ∅ else s.cells

/-- Row-major order on cells, used only to enumerate a Python set in a
definite order (Python's own set iteration order is unspecified, and every
loop below is order-insensitive). -/
def cellLE (a b : Cell) : Prop :=
  a.1 < b.1 ∨ (a.1 = b.1 ∧ a.2 ≤ b.2)

instance : DecidableRel cellLE := fun a b => by
  unfold cellLE; infer_instance

instance : IsTrans Cell cellLE where
  trans a b c hab hbc := by
    unfold cellLE at *
    omega

instance : IsAntisymm Cell cellLE where
  antisymm a b hab hba := by
    unfold cellLE at *
    exact Prod.ext (by omega) (by omega)

instance : IsTotal Cell cellLE where
  total a b := by
    unfold cellLE
    omega

/-- Computable enumeration of a cell set (row-major), via insertion sort
(which reduces inside the kernel, unlike merge sort's well-founded
recursion). -/
def toListC (s : Finset Cell) : List Cell :=
  Quot.liftOn s.val (fun l => l.insertionSort cellLE) (fun _ _ h =>
    List.eq_of_perm_of_sorted
      ((List.perm_insertionSort _ _).trans
        (h.trans (List.perm_insertionSort _ _).symm))
      (List.sorted_insertionSort _ _) (List.sorted_insertionSort _ _))

/-- `Sentence.mark_mine`: if the cell is present, remove it and decrement
`count`; otherwise a no-op. -/
def Sentence.mark_mine (s : Sentence) (c : Cell) : Sentence :=
  if c ∈ s.cells then ⟨s.cells.erase c, s.count - 1⟩ else s

/-- `Sentence.mark_safe`: if the cell is present, remove it; `count`
unchanged; otherwise a no-op. -/
def Sentence.mark_safe (s : Sentence) (c : Cell) : Sentence :=
  if c ∈ s.cells then ⟨s.cells.erase c, s.count⟩ else s

/-- The mutable state of a `MinesweeperAI` object. -/
structure AI where
  height : Nat
  width : Nat
  moves_made : Finset Cell
  mines : Finset Cell
  safes : Finset Cell
  knowledge : List Sentence
deriving DecidableEq

/-- `MinesweeperAI.__init__(height, width)`. -/
def AI.init (h w : Nat) : AI :=
  ⟨h, w, ∅, ∅, ∅, []⟩

/-- `MinesweeperAI.mark_mine`: add the cell to `mines` and propagate
`Sentence.mark_mine` through every sentence in the knowledge base. -/
def AI.mark_mine (ai : AI) (c : Cell) : AI :=
  { ai with mines := insert c ai.mines,
            knowledge := ai.knowledge.map (fun s => s.mark_mine c) }

/-- `MinesweeperAI.mark_safe`: add the cell to `safes` and propagate
`Sentence.mark_safe` through every sentence in the knowledge base. -/
def AI.mark_safe (ai : AI) (c : Cell) : AI :=
  { ai with safes := insert c ai.safes,
            knowledge := ai.knowledge.map (fun s => s.mark_safe c) }

/-- `for cell in copy: self.mark_mine(cell)` over a snapshot list. -/
def applyMines (ai : AI) (l : List Cell) : AI :=
  l.foldl AI.mark_mine ai

/-- `for cell in copy: self.mark_safe(cell)` over a snapshot list. -/
def applySafes (ai : AI) (l : List Cell) : AI :=
  l.foldl AI.mark_safe ai

/-- The neighbourhood loop of `add_knowledge`: all cells within one row and
column of `cell`, excluding `cell` itself, clipped to
`[0, height) x [0, width)` (the source skips `i < 0`, `i >= height`,
`j < 0`, `j >= width` and the centre cell). -/
def adjacentCells (height width : Nat) (cell : Cell) : Finset Cell :=
  (((List.range 3).map (fun d => (cell.1 : Int) + d - 1)).flatMap (fun i =>
    if i < 0 || (height : Int) ≤ i then []
    else ((List.range 3).map (fun d => (cell.2 : Int) + d - 1)).filterMap (fun j =>
      if j < 0 || (width : Int) ≤ j || ((cell.1 : Int) == i && (cell.2 : Int) == j) then none
      else some (i.toNat, j.toNat)))).toFinset

/-- The subset-subtraction stage of one iteration of the pairwise loop in
`add_knowledge`, acting on the sentences at positions `i` (the loop's
`sentence1`) and `j` (`sentence2`): if `sentence2.cells` is a strict
superset of `sentence1.cells`, `sentence2` is replaced in place by the
difference sentence, and symmetrically. -/
def subtractStep (ai : AI) (i j : Nat) : AI :=
  let s1 := ai.knowledge.getD i default
  let s2 := ai.knowledge.getD j default
  if s1.cells ⊂ s2.cells then
    { ai with knowledge := ai.knowledge.set j ⟨s2.cells \ s1.cells, s2.count - s1.count⟩ }
  else if s2.cells ⊂ s1.cells then
    { ai with knowledge := ai.knowledge.set i ⟨s1.cells \ s2.cells, s1.count - s2.count⟩ }
  else ai

/-- One `known_mines` application block of the pairwise loop: snapshot
(`.copy()`) the current state of the sentence at position `k` and cascade
`mark_mine` for every cell of the snapshot. -/
def applyKM (ai : AI) (k : Nat) : AI :=
  applyMines ai (toListC (ai.knowledge.getD k default).known_mines)

/-- One `known_safes` application block of the pairwise loop, as
`applyKM`. -/
def applyKS (ai : AI) (k : Nat) : AI :=
  applySafes ai (toListC (ai.knowledge.getD k default).known_safes)

/-- The four application blocks in source order: mines of `sentence1`,
mines of `sentence2`, safes of `sentence1`, safes of `sentence2`, each
snapshotting (`.copy()`) the sentence's state at that moment. -/
def applyStep (ai : AI) (i j : Nat) : AI :=
  applyKS (applyKS (applyKM (applyKM ai i) j) i) j

/-- One iteration of the pairwise loop body for the (ordered) pair of
positions `(i, j)`. -/
def pairStep (ai : AI) (i j : Nat) : AI :=
  applyStep (subtractStep ai i j) i j

/-- The full pairwise resolution pass of `add_knowledge`:
`for sentence1 in self.knowledge: for sentence2 in self.knowledge: ...`.
The list's length is fixed during the pass (the loop only mutates existing
sentences), so iterating positions `0 .. n-1` in order matches Python's
iteration over the live list. -/
def pairwisePass (ai : AI) : AI :=
  let n := ai.knowledge.length
  (List.range n).foldl (fun a i =>
    (List.range n).foldl (fun a2 j => pairStep a2 i j) a) ai

/-- `MinesweeperAI.add_knowledge(cell, count)`, steps in source order:
record the move; mark the cell safe; build the reduced sentence over the
unknown neighbours (subtracting known mines from the count); append it if
non-empty; apply its `known_mines`, then re-read the (possibly mutated)
sentence object and apply its `known_safes`; finally run the pairwise
resolution pass. -/
def AI.add_knowledge (ai : AI) (cell : Cell) (count : Int) : AI :=
  let ai1 := { ai with moves_made := insert cell ai.moves_made }
  let ai2 := ai1.mark_safe cell
  let cellSet := adjacentCells ai2.height ai2.width cell
  let count_copy := count - ((cellSet.filter (fun c => c ∈ ai2.mines)).card : Int)
  let final_set := cellSet.filter (fun c => c ∉ ai2.mines ∧ c ∉ ai2.safes)
  let new_sentence : Sentence := ⟨final_set, count_copy⟩
  let ai3 := if 0 < final_set.card
    then { ai2 with knowledge := ai2.knowledge ++ [new_sentence] } else ai2
  let ai4 := applyMines ai3 (toListC new_sentence.known_mines)
  let cur := if 0 < final_set.card
    then (ai4.knowledge.getLast?).getD new_sentence else new_sentence
  let ai5 := applySafes ai4 (toListC cur.known_safes)
  pairwisePass ai5

/-- A sequence of `add_knowledge` calls applied to a state. -/
def AI.run (ai : AI) (l : List (Cell × Int)) : AI :=
  l.foldl (fun a p => a.add_knowledge p.1 p.2) ai

/-- Each call's cell is not already believed to be a mine when the call is
made (the condition under which the engine never marks a cell both safe
and mine). -/
def okCalls : AI → List (Cell × Int) → Bool
  | _, [] => true
  | ai, (c, k) :: rest => !(c ∈ ai.mines) && okCalls (ai.add_knowledge c k) rest

/-- The call sequence is consistent with ground-truth mine set `M`: every
queried cell is safe and every reported count is the true number of
adjacent mines, as a real game driver would report. -/
def consistentCalls (M : Finset Cell) : AI → List (Cell × Int) → Bool
  | _, [] => true
  | ai, (c, k) :: rest =>
    !(c ∈ M) && (k == ((adjacentCells ai.height ai.width c ∩ M).card : Int)) &&
      consistentCalls M (ai.add_knowledge c k) rest

/-- The mine-placement loop of `Minesweeper.__init__`, driven by an
explicit stream of random picks (each pick is a `randrange(height) x
randrange(width)` cell).  `none` means the stream was exhausted with the
loop still running — no finite amount of randomness made it terminate.
The Python `board[i][j]` flag array is kept in lockstep with the `mines`
set, so the `if not self.board[i][j]` guard is membership in the set. -/
def mineLoop (target : Nat) : List Cell → Finset Cell → Option (Finset Cell)
  | picks, s =>
    if s.card = target then some s
    else
      match picks with
      | [] => none
      | c :: rest => mineLoop target rest (if c ∈ s then s else insert c s)

/-- No cell of the sentence is already resolved (marked safe or mine). -/
def SentOK (safes mines : Finset Cell) (s : Sentence) : Prop :=
  ∀ c ∈ s.cells, c ∉ safes ∧ c ∉ mines

/-- The state invariant behind `safes ∩ mines = ∅`: the two sets are
disjoint and no sentence mentions a resolved cell. -/
def Inv (ai : AI) : Prop :=
  (∀ c ∈ ai.safes, c ∉ ai.mines) ∧ ∀ s ∈ ai.knowledge, SentOK ai.safes ai.mines s

/-- Truth-consistency with a ground-truth mine set `M`: declared safes are
truly safe, declared mines are truly mines, and every sentence counts
exactly its cells that are mines. -/
def MInv (M : Finset Cell) (ai : AI) : Prop :=
  (∀ c ∈ ai.safes, c ∉ M) ∧ (∀ c ∈ ai.mines, c ∈ M) ∧
    ∀ s ∈ ai.knowledge, s.count = (((s.cells ∩ M).card : Nat) : Int)

/-- A two-sentence 3x3 knowledge base exercising the subset rule: sentence
`sA` = {(0,0),(0,1)} with count 1 sits inside sentence `sB` =
{(0,0),(0,1),(0,2)} with count 1. -/
def sA : Sentence := ⟨{(0, 0), (0, 1)}, 1⟩

/-- See `sA`. -/
def sB : Sentence := ⟨{(0, 0), (0, 1), (0, 2)}, 1⟩

/-- A 3x3 AI state whose knowledge base is `[sA, sB]`. -/
def aiC1 : AI := ⟨3, 3, ∅, ∅, ∅, [sA, sB]⟩

end MS

/-! ### Tic-tac-toe: supporting lemmas -/

namespace TTT

theorem norm3_eq {b b2 : Board} (h : norm3 b = some b2) : b2 = b := by
  unfold norm3 at h
  split at h <;> simp_all

theorem prefOrder_subset {l : List (Nat × Nat)} {a : Nat × Nat}
    (h : a ∈ prefOrder l) : a ∈ l := by
  simp only [prefOrder, List.mem_filter, decide_eq_true_eq] at h
  exact h.2

theorem actions_mem {b : Board} {a : Nat × Nat} (h : a ∈ actions b) :
    ∃ row, b[a.1]? = some row ∧ row[a.2]? = some none := by
  unfold actions at h
  rw [List.mem_flatten] at h
  obtain ⟨L, hL, haL⟩ := h
  rw [List.mem_map] at hL
  obtain ⟨⟨i, row⟩, hrow, rfl⟩ := hL
  rw [List.mem_enum_iff_getElem?] at hrow
  rw [List.mem_filterMap] at haL
  obtain ⟨⟨j, c⟩, hc, heq⟩ := haL
  rw [List.mem_enum_iff_getElem?] at hc
  by_cases hcn : c = none
  · subst hcn
    simp only [if_pos rfl] at heq
    obtain rfl := Option.some.inj heq
    exact ⟨row, hrow, hc⟩
  · simp [hcn] at heq

theorem result_eq_place {b : Board} {row : List Cell} {i j : Nat}
    (hi : b[i]? = some row) (hj : row[j]? = some none) :
    result b ((i : Int), (j : Int)) = Except.ok (place b i j (player b)) := by
  have hil : i < b.length := (List.getElem?_eq_some_iff.1 hi).1
  have hjl : j < row.length := (List.getElem?_eq_some_iff.1 hj).1
  have h1 : pyIdx b (i : Int) = some row := by
    unfold pyIdx
    rw [if_pos ⟨Int.natCast_nonneg i, by exact_mod_cast hil⟩]
    simpa using hi
  have h2 : pyIdx row (j : Int) = some none := by
    unfold pyIdx
    rw [if_pos ⟨Int.natCast_nonneg j, by exact_mod_cast hjl⟩]
    simpa using hj
  have hrow : b.getD i [] = row := by
    simp [List.getD_eq_getElem?_getD, hi]
  unfold result place
  simp [h1, h2, pySet, hrow, hi]

theorem minfold_le_init (b : Board) (fuel : Nat) (l : List (Nat × Nat)) (init : Int) :
    l.foldl (fun val a =>
      match result b ((a.1 : Int), (a.2 : Int)) with
      | Except.ok b2 => min val (maxValue fuel b2)
      | Except.error _ => val) init ≤ init := by
  induction l generalizing init with
  | nil => simp
  | cons a l ih =>
    rw [List.foldl_cons]
    refine le_trans (ih _) ?_
    cases hr : result b ((a.1 : Int), (a.2 : Int)) with
    | ok b2 => simp [hr, min_le_left]
    | error e => simp [hr]

theorem minfold_le_elem (b : Board) (fuel : Nat) {l : List (Nat × Nat)}
    {a : Nat × Nat} {b2 : Board} (ha : a ∈ l)
    (hr : result b ((a.1 : Int), (a.2 : Int)) = Except.ok b2) (init : Int) :
    l.foldl (fun val a =>
      match result b ((a.1 : Int), (a.2 : Int)) with
      | Except.ok b2 => min val (maxValue fuel b2)
      | Except.error _ => val) init ≤ maxValue fuel b2 := by
  induction l generalizing init with
  | nil => cases ha
  | cons x l ih =>
    rw [List.foldl_cons]
    rcases List.mem_cons.1 ha with rfl | hmem
    · refine le_trans (minfold_le_init b fuel l _) ?_
      simp [hr, min_le_right]
    · exact ih hmem _

theorem le_minfold (b : Board) (fuel : Nat) {l : List (Nat × Nat)} {v init : Int}
    (hinit : v ≤ init)
    (h : ∀ a ∈ l, ∀ b2, result b ((a.1 : Int), (a.2 : Int)) = Except.ok b2 →
      v ≤ maxValue fuel b2) :
    v ≤ l.foldl (fun val a =>
      match result b ((a.1 : Int), (a.2 : Int)) with
      | Except.ok b2 => min val (maxValue fuel b2)
      | Except.error _ => val) init := by
  induction l generalizing init with
  | nil => simpa
  | cons x l ih =>
    rw [List.foldl_cons]
    refine ih ?_ (fun a ha b2 hb2 => h a (List.mem_cons_of_mem _ ha) b2 hb2)
    cases hr : result b ((x.1 : Int), (x.2 : Int)) with
    | ok b2 => exact le_min hinit (h x (List.mem_cons_self _ _) b2 hr)
    | error e => exact hinit

theorem maxfold_ge_init (b : Board) (fuel : Nat) (l : List (Nat × Nat)) (init : Int) :
    init ≤ l.foldl (fun val a =>
      match result b ((a.1 : Int), (a.2 : Int)) with
      | Except.ok b2 => max val (minValue fuel b2)
      | Except.error _ => val) init := by
  induction l generalizing init with
  | nil => simp
  | cons a l ih =>
    rw [List.foldl_cons]
    refine le_trans ?_ (ih _)
    cases hr : result b ((a.1 : Int), (a.2 : Int)) with
    | ok b2 => simp [hr, le_max_left]
    | error e => simp [hr]

theorem maxfold_ge_elem (b : Board) (fuel : Nat) {l : List (Nat × Nat)}
    {a : Nat × Nat} {b2 : Board} (ha : a ∈ l)
    (hr : result b ((a.1 : Int), (a.2 : Int)) = Except.ok b2) (init : Int) :
    minValue fuel b2 ≤ l.foldl (fun val a =>
      match result b ((a.1 : Int), (a.2 : Int)) with
      | Except.ok b2 => max val (minValue fuel b2)
      | Except.error _ => val) init := by
  induction l generalizing init with
  | nil => cases ha
  | cons x l ih =>
    rw [List.foldl_cons]
    rcases List.mem_cons.1 ha with rfl | hmem
    · refine le_trans ?_ (maxfold_ge_init b fuel l _)
      simp [hr, le_max_right]
    · exact ih hmem _

theorem maxfold_le (b : Board) (fuel : Nat) {l : List (Nat × Nat)} {v init : Int}
    (hinit : init ≤ v)
    (h : ∀ a ∈ l, ∀ b2, result b ((a.1 : Int), (a.2 : Int)) = Except.ok b2 →
      minValue fuel b2 ≤ v) :
    l.foldl (fun val a =>
      match result b ((a.1 : Int), (a.2 : Int)) with
      | Except.ok b2 => max val (minValue fuel b2)
      | Except.error _ => val) init ≤ v := by
  induction l generalizing init with
  | nil => simpa
  | cons x l ih =>
    rw [List.foldl_cons]
    refine ih ?_ (fun a ha b2 hb2 => h a (List.mem_cons_of_mem _ ha) b2 hb2)
    cases hr : result b ((x.1 : Int), (x.2 : Int)) with
    | ok b2 => exact max_le hinit (h x (List.mem_cons_self _ _) b2 hr)
    | error e => exact hinit

theorem geC_go_max {fuel : Nat}
    (ihmin : ∀ b v, geC fuel false b v = true → v ≤ minValue fuel b)
    {b : Board} {v : Int} {p : Player} (hp : player b = p)
    (h : (prefOrder (actions b)).any
      (tryChild (fun b3 => geC fuel false b3 v) b p) = true) :
    v ≤ (actions b).foldl (fun val a =>
      match result b ((a.1 : Int), (a.2 : Int)) with
      | Except.ok b2 => max val (minValue fuel b2)
      | Except.error _ => val) (-5) := by
  rw [List.any_eq_true] at h
  obtain ⟨a, hmem, htry⟩ := h
  have hact := prefOrder_subset hmem
  obtain ⟨row, hi, hj⟩ := actions_mem hact
  have hres := result_eq_place hi hj
  rw [hp] at hres
  simp only [tryChild] at htry
  cases hn : norm3 (place b a.1 a.2 p) with
  | none => rw [hn] at htry; cases htry
  | some b3 =>
    rw [hn] at htry
    have hb3 : b3 = place b a.1 a.2 p := norm3_eq hn
    refine le_trans (ihmin b3 v htry) ?_
    subst hb3
    exact maxfold_ge_elem b fuel hact hres (-5)

theorem geC_go_min {fuel : Nat}
    (ihmax : ∀ b v, geC fuel true b v = true → v ≤ maxValue fuel b)
    {b : Board} {v : Int} {p : Player} (hp : player b = p) (h5 : v ≤ 5)
    (h : (actions b).all (tryChild (fun b3 => geC fuel true b3 v) b p) = true) :
    v ≤ (actions b).foldl (fun val a =>
      match result b ((a.1 : Int), (a.2 : Int)) with
      | Except.ok b2 => min val (maxValue fuel b2)
      | Except.error _ => val) 5 := by
  rw [List.all_eq_true] at h
  refine le_minfold b fuel h5 ?_
  intro a ha b2 hb2
  obtain ⟨row, hi, hj⟩ := actions_mem ha
  have hres := result_eq_place hi hj
  rw [hp] at hres
  rw [hres] at hb2
  injection hb2 with hb2
  have htry := h a ha
  simp only [tryChild] at htry
  cases hn : norm3 (place b a.1 a.2 p) with
  | none => rw [hn] at htry; cases htry
  | some b3 =>
    rw [hn] at htry
    have hb3 : b3 = place b a.1 a.2 p := norm3_eq hn
    rw [← hb2, ← hb3]
    exact ihmax b3 v htry

theorem leC_go_max {fuel : Nat}
    (ihmin : ∀ b v, leC fuel false b v = true → minValue fuel b ≤ v)
    {b : Board} {v : Int} {p : Player} (hp : player b = p) (h5 : (-5 : Int) ≤ v)
    (h : (actions b).all (tryChild (fun b3 => leC fuel false b3 v) b p) = true) :
    (actions b).foldl (fun val a =>
      match result b ((a.1 : Int), (a.2 : Int)) with
      | Except.ok b2 => max val (minValue fuel b2)
      | Except.error _ => val) (-5) ≤ v := by
  rw [List.all_eq_true] at h
  refine maxfold_le b fuel h5 ?_
  intro a ha b2 hb2
  obtain ⟨row, hi, hj⟩ := actions_mem ha
  have hres := result_eq_place hi hj
  rw [hp] at hres
  rw [hres] at hb2
  injection hb2 with hb2
  have htry := h a ha
  simp only [tryChild] at htry
  cases hn : norm3 (place b a.1 a.2 p) with
  | none => rw [hn] at htry; cases htry
  | some b3 =>
    rw [hn] at htry
    have hb3 : b3 = place b a.1 a.2 p := norm3_eq hn
    rw [← hb2, ← hb3]
    exact ihmin b3 v htry

theorem leC_go_min {fuel : Nat}
    (ihmax : ∀ b v, leC fuel true b v = true → maxValue fuel b ≤ v)
    {b : Board} {v : Int} {p : Player} (hp : player b = p)
    (h : (prefOrder (actions b)).any
      (tryChild (fun b3 => leC fuel true b3 v) b p) = true) :
    (actions b).foldl (fun val a =>
      match result b ((a.1 : Int), (a.2 : Int)) with
      | Except.ok b2 => min val (maxValue fuel b2)
      | Except.error _ => val) 5 ≤ v := by
  rw [List.any_eq_true] at h
  obtain ⟨a, hmem, htry⟩ := h
  have hact := prefOrder_subset hmem
  obtain ⟨row, hi, hj⟩ := actions_mem hact
  have hres := result_eq_place hi hj
  rw [hp] at hres
  simp only [tryChild] at htry
  cases hn : norm3 (place b a.1 a.2 p) with
  | none => rw [hn] at htry; cases htry
  | some b3 =>
    rw [hn] at htry
    have hb3 : b3 = place b a.1 a.2 p := norm3_eq hn
    refine le_trans ?_ (ihmax b3 v htry)
    subst hb3
    exact minfold_le_elem b fuel hact hres 5

theorem geC_sound (fuel : Nat) :
    (∀ b v, geC fuel true b v = true → v ≤ maxValue fuel b) ∧
    (∀ b v, geC fuel false b v = true → v ≤ minValue fuel b) := by
  induction fuel with
  | zero =>
    constructor <;> intro b v h <;> simp [geC] at h
    · simpa [maxValue] using h
    · simpa [minValue] using h
  | succ fuel ih =>
    constructor <;> intro b v h <;> simp only [geC] at h
    · rw [maxValue]
      by_cases ht : terminal b = true
      · simp [ht] at h ⊢; exact h
      · simp only [ht, if_false, Bool.false_eq_true] at h ⊢
        cases hp : player b <;> rw [hp] at h <;> simp only [if_true] at h <;>
          exact geC_go_max ih.2 hp h
    · rw [minValue]
      by_cases ht : terminal b = true
      · simp [ht] at h ⊢; exact h
      · simp only [ht, if_false, Bool.false_eq_true] at h ⊢
        cases hp : player b <;> rw [hp] at h <;>
          simp only [Bool.if_false_left, Bool.and_eq_true, decide_eq_true_eq] at h <;>
          exact geC_go_min ih.1 hp h.1 h.2

theorem leC_sound (fuel : Nat) :
    (∀ b v, leC fuel true b v = true → maxValue fuel b ≤ v) ∧
    (∀ b v, leC fuel false b v = true → minValue fuel b ≤ v) := by
  induction fuel with
  | zero =>
    constructor <;> intro b v h <;> simp [leC] at h
    · simpa [maxValue] using h
    · simpa [minValue] using h
  | succ fuel ih =>
    constructor <;> intro b v h <;> simp only [leC] at h
    · rw [maxValue]
      by_cases ht : terminal b = true
      · simp [ht] at h ⊢; exact h
      · simp only [ht, if_false, Bool.false_eq_true] at h ⊢
        cases hp : player b <;> rw [hp] at h <;>
          simp only [if_true, Bool.and_eq_true, decide_eq_true_eq] at h <;>
          exact leC_go_max ih.2 hp h.1 h.2
    · rw [minValue]
      by_cases ht : terminal b = true
      · simp [ht] at h ⊢; exact h
      · simp only [ht, if_false, Bool.false_eq_true] at h ⊢
        cases hp : player b <;> rw [hp] at h <;> simp only [if_true] at h <;>
          exact leC_go_min ih.1 hp h

end TTT

namespace TTT

/-- For in-range coordinates, `result` on the empty board plays `X` at the
requested cell. -/
theorem res_cb {i j : Nat} (hi : i < 3) (hj : j < 3) :
    result initial_state ((i : Int), (j : Int)) = Except.ok (cb i j) := by
  have h1 : initial_state[i]? = some [none, none, none] := by
    interval_cases i <;> rfl
  have h2 : ([none, none, none] : List Cell)[j]? = some none := by
    interval_cases j <;> rfl
  rw [result_eq_place h1 h2]
  rfl

/-- Every one-move board has game value at most 0 for the mover (the
second player can always force at least a draw); certified by the
upper-bound checker. -/
theorem minValue_cb_le (i j : Nat) (hi : i < 3) (hj : j < 3) :
    minValue 9 (cb i j) ≤ 0 := by
  have h : leC 9 false (cb i j) 0 = true := by
    interval_cases i <;> interval_cases j <;> decide!
  exact (leC_sound 9).2 _ 0 h

/-- The corner opening has game value exactly 0 (draw under optimal
play). -/
theorem minValue_cb00 : minValue 9 (cb 0 0) = 0 :=
  le_antisymm (minValue_cb_le 0 0 (by decide) (by decide))
    ((geC_sound 9).2 (cb 0 0) 0 (by decide!))

/-- Dispatch form of `minValue_cb_le` over the action list of the empty
board. -/
theorem minValue_children_le : ∀ a ∈ actions initial_state, ∀ b2,
    result initial_state ((a.1 : Int), (a.2 : Int)) = Except.ok b2 →
    minValue 9 b2 ≤ 0 := by
  rintro ⟨i, j⟩ ha b2 hb2
  obtain ⟨row, hi, hj⟩ := actions_mem ha
  have hi3 : i < 3 := by
    simpa [initial_state] using (List.getElem?_eq_some_iff.1 hi).1
  have hrow : row = [none, none, none] := by
    interval_cases i <;> simp [initial_state] at hi <;> exact hi.symm
  subst hrow
  have hj3 : j < 3 := by
    simpa using (List.getElem?_eq_some_iff.1 hj).1
  rw [res_cb hi3 hj3] at hb2
  injection hb2 with hb2
  rw [← hb2]
  exact minValue_cb_le i j hi3 hj3

theorem actions_initial : actions initial_state =
    [(0, 0), (0, 1), (0, 2), (1, 0), (1, 1), (1, 2), (2, 0), (2, 1), (2, 2)] := rfl

/-- The minimax value of the empty grid is 0: optimal mutual play draws. -/
theorem maxValue_empty : maxValue 10 initial_state = 0 := by
  rw [show (10 : Nat) = 9 + 1 from rfl, maxValue]
  rw [if_neg (by decide : ¬ terminal initial_state = true)]
  refine le_antisymm (maxfold_le initial_state 9 (by decide) minValue_children_le) ?_
  have h00 := maxfold_ge_elem initial_state 9
    (show ((0, 0) : Nat × Nat) ∈ actions initial_state by decide)
    (res_cb (i := 0) (j := 0) (by decide) (by decide)) (-5)
  rwa [minValue_cb00] at h00

/-- `cellAt` through `getElem?`, the form the `List.set` lemmas speak. -/
theorem cellAt_eq (b : Board) (i j : Nat) :
    cellAt b i j = ((b[i]?.getD [])[j]?).getD none := by
  unfold cellAt
  rw [List.getD_eq_getElem?_getD, List.getD_eq_getElem?_getD]

/-- General form of `result`'s behaviour on an in-range cell given the
contents of that cell. -/
theorem result_compute {b : Board} {row : List Cell} {i j : Nat} {c : Cell}
    (hi : b[i]? = some row) (hj : row[j]? = some c) :
    result b ((i : Int), (j : Int)) =
      (if c = none then Except.ok (place b i j (player b))
       else Except.error MoveError.illegalMove) := by
  have hil : i < b.length := (List.getElem?_eq_some_iff.1 hi).1
  have hjl : j < row.length := (List.getElem?_eq_some_iff.1 hj).1
  have h1 : pyIdx b (i : Int) = some row := by
    unfold pyIdx
    rw [if_pos ⟨Int.natCast_nonneg i, by exact_mod_cast hil⟩]
    simpa using hi
  have h2 : pyIdx row (j : Int) = some c := by
    unfold pyIdx
    rw [if_pos ⟨Int.natCast_nonneg j, by exact_mod_cast hjl⟩]
    simpa using hj
  have hrow : b.getD i [] = row := by
    simp [List.getD_eq_getElem?_getD, hi]
  by_cases hc : c = none
  · subst hc
    unfold result place
    simp [h1, h2, pySet, hrow, hi]
  · unfold result
    simp [h1, h2, hc]

/-- The scan in `minimax`'s maximizing branch keeps its accumulator when
every remaining move's value is at most the accumulated maximum. -/
theorem minimax_fold_eval (l : List (Nat × Nat)) (acc : Int × Option (Nat × Nat))
    (h : ∀ a ∈ l, ∀ b2, result initial_state ((a.1 : Int), (a.2 : Int)) = Except.ok b2 →
      minValue 9 b2 ≤ acc.1) :
    l.foldl (fun acc a =>
      match result initial_state ((a.1 : Int), (a.2 : Int)) with
      | Except.ok b2 =>
        let val := minValue 9 b2
        if acc.1 < val then (val, some a) else acc
      | Except.error _ => acc) acc = acc := by
  induction l generalizing acc with
  | nil => rfl
  | cons x l ih =>
    rw [List.foldl_cons]
    have hstep : (match result initial_state ((x.1 : Int), (x.2 : Int)) with
      | Except.ok b2 =>
        let val := minValue 9 b2
        if acc.1 < val then (val, some x) else acc
      | Except.error _ => acc) = acc := by
      cases hr : result initial_state ((x.1 : Int), (x.2 : Int)) with
      | ok b2 =>
        simp only []
        exact if_neg (not_lt.2 (h x (List.mem_cons_self _ _) b2 hr))
      | error e => rfl
    rw [hstep]
    exact ih acc (fun a ha b2 hb2 => h a (List.mem_cons_of_mem _ ha) b2 hb2)

/-- If the first scanned move has value 0 and every later move has value
at most 0, the scan returns the first move. -/
theorem minimax_scan (a0 : Nat × Nat) (rest : List (Nat × Nat)) (b0 : Board)
    (h0 : result initial_state ((a0.1 : Int), (a0.2 : Int)) = Except.ok b0)
    (hv0 : minValue 9 b0 = 0)
    (h : ∀ a ∈ rest, ∀ b2, result initial_state ((a.1 : Int), (a.2 : Int)) = Except.ok b2 →
      minValue 9 b2 ≤ 0) :
    ((a0 :: rest).foldl (fun acc a =>
      match result initial_state ((a.1 : Int), (a.2 : Int)) with
      | Except.ok b2 =>
        let val := minValue 9 b2
        if acc.1 < val then (val, some a) else acc
      | Except.error _ => acc) ((-5 : Int), none)).2 = some a0 := by
  rw [List.foldl_cons]
  have hstep : (match result initial_state ((a0.1 : Int), (a0.2 : Int)) with
    | Except.ok b2 =>
      let val := minValue 9 b2
      if ((-5 : Int), (none : Option (Nat × Nat))).1 < val then (val, some a0)
      else ((-5 : Int), none)
    | Except.error _ => ((-5 : Int), none)) = ((0 : Int), some a0) := by
    rw [h0]
    simp only [hv0]
    norm_num
  rw [hstep]
  rw [minimax_fold_eval rest ((0 : Int), some a0) (by simpa using h)]

/-- The first scanned move of the empty grid already attains the best
available value, so the `max < val` scan in `minimax` never moves off
`(0, 0)`. -/
theorem minimax_empty : minimax initial_state = some (0, 0) := by
  simp only [minimax]
  rw [if_neg (by decide : ¬ terminal initial_state = true)]
  rw [if_pos (show player initial_state = Player.X from rfl)]
  rw [actions_initial]
  exact minimax_scan (0, 0)
    [(0, 1), (0, 2), (1, 0), (1, 1), (1, 2), (2, 0), (2, 1), (2, 2)]
    (cb 0 0) (res_cb (by decide) (by decide)) minValue_cb00
    (fun a ha => minValue_children_le a
      (by rw [actions_initial]; exact List.mem_cons_of_mem _ ha))

/-- On the spec's blocking-test grid, the engine (playing `X` by parity)
takes the immediate win at `(0, 2)`. -/
theorem minimax_bC5 : minimax bC5 = some (0, 2) := by decide!

end TTT

/-! ### Tic-tac-toe: claims -/

/-- Claim C5, counterexample: on the grid
`[[X, X, Empty], [O, O, Empty], [Empty, Empty, Empty]]` the source's
`minimax` returns `(0, 2)`, not the blocking move `(1, 2)` the claim
demands: with four occupied cells the parity rule makes it `X`'s turn, and
`X` wins at once. -/
theorem claim_C5_counterexample :
    TTT.minimax TTT.bC5 = some (0, 2) ∧ TTT.minimax TTT.bC5 ≠ some (1, 2) :=
  ⟨TTT.minimax_bC5, by rw [TTT.minimax_bC5]; decide⟩

/-- Claim C5, amended: on the grid
`[[X, X, Empty], [O, O, Empty], [Empty, Empty, Empty]]` the current player
determined by the parity rule is `X` (not `O`), and `minimax` returns
`(0, 2)` — for `X` the winning, not the blocking, move. -/
theorem claim_C5_amended :
    TTT.player TTT.bC5 = TTT.Player.X ∧ TTT.minimax TTT.bC5 = some (0, 2) :=
  ⟨rfl, TTT.minimax_bC5⟩

/-- Claim C6: on the empty 3x3 grid `minimax` returns a corner or the
center (concretely `(0, 0)`, the first corner in scan order), and the
minimax value of the empty grid under full mutual optimal play
(`maxValue` with enough fuel for all nine plies) is 0, a draw. -/
theorem claim_C6_minimax_empty :
    (∃ m, TTT.minimax TTT.initial_state = some m ∧
      m ∈ [((0, 0) : Nat × Nat), (0, 2), (2, 0), (2, 2), (1, 1)]) ∧
    TTT.maxValue 10 TTT.initial_state = 0 :=
  ⟨⟨(0, 0), TTT.minimax_empty, by decide⟩, TTT.maxValue_empty⟩

/-- Claim C7: for every 3x3 grid and in-range cell, `result` errors with
`IllegalMoveError` exactly when the cell is occupied, and otherwise
returns a new grid equal to the input except that the chosen cell now
holds the current player.  (The input grid is untouched by construction:
the embedding is pure and `result` builds its output with `List.set`,
mirroring the source's `deepcopy`.) -/
theorem claim_C7_result_contract (b : TTT.Board) (i j : Nat) (hb : b.length = 3)
    (hrow : ∀ r ∈ b, r.length = 3) (hi : i < 3) (hj : j < 3) :
    (TTT.cellAt b i j ≠ none →
      TTT.result b ((i : Int), (j : Int)) = Except.error TTT.MoveError.illegalMove) ∧
    (TTT.cellAt b i j = none → ∃ b2,
      TTT.result b ((i : Int), (j : Int)) = Except.ok b2 ∧
      TTT.cellAt b2 i j = some (TTT.player b) ∧
      ∀ i2 j2, i2 < 3 → j2 < 3 → ¬(i2 = i ∧ j2 = j) →
        TTT.cellAt b2 i2 j2 = TTT.cellAt b i2 j2) := by
  have hil : i < b.length := by omega
  have hbi : b[i]? = some (b.getD i []) := by
    rw [List.getD_eq_getElem?_getD, List.getElem?_eq_getElem hil]
    rfl
  have hmem : b.getD i [] ∈ b := by
    rw [List.getD_eq_getElem?_getD, List.getElem?_eq_getElem hil]
    exact List.getElem_mem hil
  have hjl : j < (b.getD i []).length := by rw [hrow _ hmem]; omega
  have hcell : TTT.cellAt b i j = (b.getD i [])[j] := by
    rw [TTT.cellAt_eq, hbi]
    simp only [Option.getD_some]
    rw [List.getElem?_eq_getElem hjl]
    rfl
  have hrj : (b.getD i [])[j]? = some (TTT.cellAt b i j) := by
    rw [List.getElem?_eq_getElem hjl, hcell]
  have hres := TTT.result_compute hbi hrj
  constructor
  · intro hne
    rw [hres, if_neg hne]
  · intro he
    refine ⟨TTT.place b i j (TTT.player b), by rw [hres, if_pos he], ?_, ?_⟩
    · rw [TTT.cellAt_eq]
      unfold TTT.place
      rw [List.getElem?_set_self hil]
      simp only [Option.getD_some]
      rw [List.getElem?_set_self hjl]
      rfl
    · intro i2 j2 hi2 hj2 hne
      by_cases hii : i2 = i
      · subst hii
        have hjj : j ≠ j2 := fun h => hne ⟨rfl, h.symm⟩
        rw [TTT.cellAt_eq, TTT.cellAt_eq]
        unfold TTT.place
        rw [List.getElem?_set_self hil]
        simp only [Option.getD_some]
        rw [List.getElem?_set_ne hjj]
        rw [hbi]
        simp only [Option.getD_some]
      · have hii2 : i ≠ i2 := fun h => hii h.symm
        rw [TTT.cellAt_eq, TTT.cellAt_eq]
        unfold TTT.place
        rw [List.getElem?_set_ne hii2]

/-- Claim C7's witness: the contract instantiated on the occupied cell
`(0, 0)` of the blocking-test grid. -/
theorem claim_C7_witness :
    (TTT.bC5.length = 3 ∧ (∀ r ∈ TTT.bC5, r.length = 3) ∧ (0 : Nat) < 3 ∧ (0 : Nat) < 3) ∧
    ((TTT.cellAt TTT.bC5 0 0 ≠ none →
      TTT.result TTT.bC5 ((0 : Int), (0 : Int)) = Except.error TTT.MoveError.illegalMove) ∧
    (TTT.cellAt TTT.bC5 0 0 = none → ∃ b2,
      TTT.result TTT.bC5 ((0 : Int), (0 : Int)) = Except.ok b2 ∧
      TTT.cellAt b2 0 0 = some (TTT.player TTT.bC5) ∧
      ∀ i2 j2, i2 < 3 → j2 < 3 → ¬(i2 = 0 ∧ j2 = 0) →
        TTT.cellAt b2 i2 j2 = TTT.cellAt TTT.bC5 i2 j2)) :=
  ⟨⟨rfl, by decide, by decide, by decide⟩,
    claim_C7_result_contract TTT.bC5 0 0 rfl (by decide) (by decide) (by decide)⟩

/-- Claim C8: the code does NOT reject every out-of-range move — Python's
negative indexing makes `result(board, (-1, -1))` on the empty grid wrap
to cell `(2, 2)` and return a modified grid instead of an error; any index
at or beyond 3 does raise `IndexError`, but negative in-range-after-wrap
indices are silently accepted, contradicting the spec's
reject-out-of-range requirement. -/
theorem claim_C8_negative_index :
    TTT.result TTT.initial_state (-1, -1) =
      Except.ok [[none, none, none], [none, none, none],
        [none, none, some TTT.Player.X]] ∧
    ∀ e, TTT.result TTT.initial_state (-1, -1) ≠ Except.error e := by
  refine ⟨rfl, fun e h => ?_⟩
  rw [show TTT.result TTT.initial_state (-1, -1) =
    Except.ok [[none, none, none], [none, none, none],
      [none, none, some TTT.Player.X]] from rfl] at h
  exact Except.noConfusion h

/-- Claim C9: on any grid where both players have a completed line (as
checked by the source's own line scan), `utility` returns 1 and `winner`
returns `X`, because the player loop checks `X`'s lines first. -/
theorem claim_C9_double_win (b : TTT.Board)
    (hX : TTT.wins b TTT.Player.X) (_hO : TTT.wins b TTT.Player.O) :
    TTT.utility b = 1 ∧ TTT.winner b = some TTT.Player.X := by
  refine ⟨?_, ?_⟩
  · simp [TTT.utility, hX]
  · simp [TTT.winner, TTT.utility, hX]

/-- Claim C9's witness: the double-three-in-a-row grid with `X` on the top
row and `O` on the middle row. -/
theorem claim_C9_witness :
    TTT.wins TTT.bothWin TTT.Player.X ∧ TTT.wins TTT.bothWin TTT.Player.O ∧
    (TTT.utility TTT.bothWin = 1 ∧ TTT.winner TTT.bothWin = some TTT.Player.X) :=
  ⟨by decide, by decide,
    claim_C9_double_win TTT.bothWin (by decide) (by decide)⟩


namespace MS

theorem toListC_mem {s : Finset Cell} {c : Cell} : c ∈ toListC s ↔ c ∈ s := by
  rw [← Finset.mem_val]
  unfold toListC
  generalize s.val = m
  induction m using Quot.inductionOn with
  | h l => simp [List.mem_insertionSort]

theorem toListC_empty : toListC ∅ = [] := rfl

theorem mark_mine_mines (ai : AI) (c : Cell) :
    (ai.mark_mine c).mines = insert c ai.mines := rfl

theorem mark_mine_safes (ai : AI) (c : Cell) :
    (ai.mark_mine c).safes = ai.safes := rfl

theorem mark_safe_safes (ai : AI) (c : Cell) :
    (ai.mark_safe c).safes = insert c ai.safes := rfl

theorem mark_safe_mines (ai : AI) (c : Cell) :
    (ai.mark_safe c).mines = ai.mines := rfl

theorem mark_mine_knowledge_get (ai : AI) (c : Cell) (k : Nat) :
    (ai.mark_mine c).knowledge[k]? =
      (ai.knowledge[k]?).map (fun s => s.mark_mine c) := by
  unfold AI.mark_mine
  exact List.getElem?_map ..

theorem mark_safe_knowledge_get (ai : AI) (c : Cell) (k : Nat) :
    (ai.mark_safe c).knowledge[k]? =
      (ai.knowledge[k]?).map (fun s => s.mark_safe c) := by
  unfold AI.mark_safe
  exact List.getElem?_map ..

theorem applyMines_safes (ai : AI) (l : List Cell) :
    (applyMines ai l).safes = ai.safes := by
  induction l generalizing ai with
  | nil => rfl
  | cons c rest ih => rw [applyMines, List.foldl_cons]; exact ih _

theorem applySafes_mines (ai : AI) (l : List Cell) :
    (applySafes ai l).mines = ai.mines := by
  induction l generalizing ai with
  | nil => rfl
  | cons c rest ih => rw [applySafes, List.foldl_cons]; exact ih _

theorem applyMines_mines_mono (ai : AI) (l : List Cell) :
    ai.mines ⊆ (applyMines ai l).mines := by
  induction l generalizing ai with
  | nil => exact fun x hx => hx
  | cons c rest ih =>
    rw [applyMines, List.foldl_cons]
    exact fun x hx => ih (ai.mark_mine c) (Finset.mem_insert_of_mem hx)

theorem applySafes_safes_mono (ai : AI) (l : List Cell) :
    ai.safes ⊆ (applySafes ai l).safes := by
  induction l generalizing ai with
  | nil => exact fun x hx => hx
  | cons c rest ih =>
    rw [applySafes, List.foldl_cons]
    exact fun x hx => ih (ai.mark_safe c) (Finset.mem_insert_of_mem hx)

theorem applyMines_mem (ai : AI) (l : List Cell) {c : Cell} (hc : c ∈ l) :
    c ∈ (applyMines ai l).mines := by
  induction l generalizing ai with
  | nil => cases hc
  | cons x rest ih =>
    rw [applyMines, List.foldl_cons]
    rcases List.mem_cons.1 hc with rfl | hmem
    · exact applyMines_mines_mono _ _ (Finset.mem_insert_self _ _)
    · exact ih _ hmem

theorem applySafes_mem (ai : AI) (l : List Cell) {c : Cell} (hc : c ∈ l) :
    c ∈ (applySafes ai l).safes := by
  induction l generalizing ai with
  | nil => cases hc
  | cons x rest ih =>
    rw [applySafes, List.foldl_cons]
    rcases List.mem_cons.1 hc with rfl | hmem
    · exact applySafes_safes_mono _ _ (Finset.mem_insert_self _ _)
    · exact ih _ hmem


theorem applyMines_knowledge_get (ai : AI) (l : List Cell) (k : Nat) :
    (applyMines ai l).knowledge[k]? =
      (ai.knowledge[k]?).map (fun s => l.foldl Sentence.mark_mine s) := by
  induction l generalizing ai with
  | nil => cases h : ai.knowledge[k]? <;> simp [applyMines, h]
  | cons c rest ih =>
    have hstep : applyMines ai (c :: rest) = applyMines (ai.mark_mine c) rest := by
      rw [applyMines, applyMines, List.foldl_cons]
    rw [hstep, ih, mark_mine_knowledge_get]
    cases ai.knowledge[k]? <;> simp [List.foldl_cons]

theorem applySafes_knowledge_get (ai : AI) (l : List Cell) (k : Nat) :
    (applySafes ai l).knowledge[k]? =
      (ai.knowledge[k]?).map (fun s => l.foldl Sentence.mark_safe s) := by
  induction l generalizing ai with
  | nil => cases h : ai.knowledge[k]? <;> simp [applySafes, h]
  | cons c rest ih =>
    have hstep : applySafes ai (c :: rest) = applySafes (ai.mark_safe c) rest := by
      rw [applySafes, applySafes, List.foldl_cons]
    rw [hstep, ih, mark_safe_knowledge_get]
    cases ai.knowledge[k]? <;> simp [List.foldl_cons]

theorem sentence_foldl_mark_mine_id (s : Sentence) (l : List Cell)
    (h : ∀ c ∈ l, c ∉ s.cells) : l.foldl Sentence.mark_mine s = s := by
  induction l with
  | nil => rfl
  | cons c rest ih =>
    rw [List.foldl_cons]
    rw [show s.mark_mine c = s from if_neg (h c (List.mem_cons_self _ _))]
    exact ih (fun x hx => h x (List.mem_cons_of_mem _ hx))

theorem sentence_foldl_mark_safe_id (s : Sentence) (l : List Cell)
    (h : ∀ c ∈ l, c ∉ s.cells) : l.foldl Sentence.mark_safe s = s := by
  induction l with
  | nil => rfl
  | cons c rest ih =>
    rw [List.foldl_cons]
    rw [show s.mark_safe c = s from if_neg (h c (List.mem_cons_self _ _))]
    exact ih (fun x hx => h x (List.mem_cons_of_mem _ hx))

theorem sentence_foldl_mark_mine_cells (s : Sentence) (l : List Cell) :
    (l.foldl Sentence.mark_mine s).cells ⊆ s.cells := by
  induction l generalizing s with
  | nil => exact fun x hx => hx
  | cons c rest ih =>
    rw [List.foldl_cons]
    refine subset_trans (ih _) ?_
    unfold Sentence.mark_mine
    split
    · exact Finset.erase_subset _ _
    · exact fun x hx => hx

theorem sentence_foldl_mark_safe_cells (s : Sentence) (l : List Cell) :
    (l.foldl Sentence.mark_safe s).cells ⊆ s.cells := by
  induction l generalizing s with
  | nil => exact fun x hx => hx
  | cons c rest ih =>
    rw [List.foldl_cons]
    refine subset_trans (ih _) ?_
    unfold Sentence.mark_safe
    split
    · exact Finset.erase_subset _ _
    · exact fun x hx => hx

theorem known_mines_subset (s : Sentence) : s.known_mines ⊆ s.cells := by
  unfold Sentence.known_mines
  split
  · exact Finset.empty_subset _
  · exact fun x hx => hx

theorem known_safes_subset (s : Sentence) : s.known_safes ⊆ s.cells := by
  unfold Sentence.known_safes
  split
  · exact Finset.empty_subset _
  · exact fun x hx => hx

theorem known_mines_nonempty_safes (s : Sentence) (h : s.known_mines ≠ ∅) :
    s.known_safes = ∅ := by
  unfold Sentence.known_mines at h
  unfold Sentence.known_safes
  split at h
  · exact absurd rfl h
  · rename_i hcard
    rw [not_ne_iff] at hcard
    rw [if_pos ?_]
    intro hc0
    rw [hc0] at hcard
    have hcells : s.cells = ∅ := Finset.card_eq_zero.1 (by exact_mod_cast hcard)
    exact h hcells

theorem getD_of_getElem {l : List Sentence} {k : Nat} {s : Sentence}
    (h : l[k]? = some s) : l.getD k default = s := by
  rw [List.getD_eq_getElem?_getD, h]
  rfl

end MS

namespace MS

theorem applyKM_safes (ai : AI) (k : Nat) : (applyKM ai k).safes = ai.safes :=
  applyMines_safes _ _

theorem applyKS_mines (ai : AI) (k : Nat) : (applyKS ai k).mines = ai.mines :=
  applySafes_mines _ _

theorem applyKM_mem_mines {ai : AI} {k : Nat} {t : Sentence} {c : Cell}
    (hk : ai.knowledge[k]? = some t) (hc : c ∈ t.known_mines) :
    c ∈ (applyKM ai k).mines := by
  unfold applyKM
  rw [getD_of_getElem hk]
  exact applyMines_mem _ _ (toListC_mem.2 hc)

theorem applyKS_mem_safes {ai : AI} {k : Nat} {t : Sentence} {c : Cell}
    (hk : ai.knowledge[k]? = some t) (hc : c ∈ t.known_safes) :
    c ∈ (applyKS ai k).safes := by
  unfold applyKS
  rw [getD_of_getElem hk]
  exact applySafes_mem _ _ (toListC_mem.2 hc)

theorem applyKM_preserve {ai : AI} {k m : Nat} {t u : Sentence}
    (hk : ai.knowledge[k]? = some t) (hm : ai.knowledge[m]? = some u)
    (hdisj : ∀ c ∈ t.cells, c ∉ u.cells) :
    (applyKM ai k).knowledge[m]? = some u := by
  unfold applyKM
  rw [getD_of_getElem hk, applyMines_knowledge_get, hm, Option.map_some']
  congr 1
  exact sentence_foldl_mark_mine_id _ _ (fun c hc =>
    hdisj c (known_mines_subset _ (toListC_mem.1 hc)))

theorem applyKS_preserve {ai : AI} {k m : Nat} {t u : Sentence}
    (hk : ai.knowledge[k]? = some t) (hm : ai.knowledge[m]? = some u)
    (hdisj : ∀ c ∈ t.cells, c ∉ u.cells) :
    (applyKS ai k).knowledge[m]? = some u := by
  unfold applyKS
  rw [getD_of_getElem hk, applySafes_knowledge_get, hm, Option.map_some']
  congr 1
  exact sentence_foldl_mark_safe_id _ _ (fun c hc =>
    hdisj c (known_safes_subset _ (toListC_mem.1 hc)))

theorem applyKM_km_empty {ai : AI} {k : Nat} {t : Sentence}
    (hk : ai.knowledge[k]? = some t) (h : t.known_mines = ∅) :
    applyKM ai k = ai := by
  unfold applyKM
  rw [getD_of_getElem hk, h, toListC_empty]
  rfl

theorem applyKM_shrink {ai : AI} {m : Nat} {u : Sentence} (k : Nat)
    (hm : ai.knowledge[m]? = some u) :
    ∃ u2, (applyKM ai k).knowledge[m]? = some u2 ∧ u2.cells ⊆ u.cells := by
  unfold applyKM
  rw [applyMines_knowledge_get, hm, Option.map_some']
  exact ⟨_, rfl, sentence_foldl_mark_mine_cells _ _⟩

/-- The four application blocks of `applyStep` put the known mines and the
known safes of the sentence at position `j` into `mines` and `safes`
respectively, provided that sentence's cells are disjoint from the cells
of the sentence at position `i`. -/
theorem applyStep_spec (A : AI) (i j : Nat) (s1 d : Sentence)
    (hAi : A.knowledge[i]? = some s1) (hAj : A.knowledge[j]? = some d)
    (hdisj : ∀ c ∈ s1.cells, c ∉ d.cells) :
    d.known_mines ⊆ (applyStep A i j).mines ∧
    d.known_safes ⊆ (applyStep A i j).safes := by
  rw [applyStep]
  -- phase 1: known mines of sentence1; sentence2 untouched
  have hBj : (applyKM A i).knowledge[j]? = some d :=
    applyKM_preserve hAi hAj hdisj
  obtain ⟨s1b, hBi, hs1b⟩ := applyKM_shrink (u := s1) i hAi
  have hdisjb : ∀ c ∈ s1b.cells, c ∉ d.cells := fun c hc => hdisj c (hs1b hc)
  constructor
  · -- mines: phase 2 inserts them, phases 3 and 4 keep mines unchanged
    intro c hc
    rw [applyKS_mines, applyKS_mines]
    exact applyKM_mem_mines hBj hc
  · by_cases hkm : d.known_mines = ∅
    · -- phase 2 is a no-op: sentence2's known-mines snapshot is empty
      rw [applyKM_km_empty hBj hkm]
      -- phase 3 applies safes of sentence1, disjoint from sentence2
      have hDj : (applyKS (applyKM A i) i).knowledge[j]? = some d :=
        applyKS_preserve hBi hBj hdisjb
      -- phase 4 inserts the known safes of sentence2
      intro c hc
      exact applyKS_mem_safes hDj hc
    · rw [known_mines_nonempty_safes d hkm]
      exact fun c hc => absurd hc (Finset.not_mem_empty c)

theorem subtractStep_eq {ai : AI} {i j : Nat} {s1 s2 : Sentence}
    (h1 : ai.knowledge[i]? = some s1) (h2 : ai.knowledge[j]? = some s2)
    (hss : s1.cells ⊂ s2.cells) :
    subtractStep ai i j =
      { ai with knowledge :=
          ai.knowledge.set j ⟨s2.cells \ s1.cells, s2.count - s1.count⟩ } := by
  unfold subtractStep
  rw [getD_of_getElem h1, getD_of_getElem h2]
  rw [if_pos hss]

end MS

/-- Claim C1: whenever the knowledge base holds sentences `s1` (at `i`) and
`s2` (at `j`) with `s1.cells` a strict subset of `s2.cells`, the
subtraction stage of the pairwise pass replaces `s2` by
`(s2.cells \ s1.cells, s2.count - s1.count)`, and the full pair step then
applies that derived sentence's known mines and known safes to the
engine's `mines` and `safes` sets. -/
theorem claim_C1_subset_resolution (ai : MS.AI) (i j : Nat) (s1 s2 : MS.Sentence)
    (h1 : ai.knowledge[i]? = some s1) (h2 : ai.knowledge[j]? = some s2)
    (hss : s1.cells ⊂ s2.cells) :
    (MS.subtractStep ai i j).knowledge[j]? =
      some ⟨s2.cells \ s1.cells, s2.count - s1.count⟩ ∧
    (⟨s2.cells \ s1.cells, s2.count - s1.count⟩ : MS.Sentence).known_mines ⊆
      (MS.pairStep ai i j).mines ∧
    (⟨s2.cells \ s1.cells, s2.count - s1.count⟩ : MS.Sentence).known_safes ⊆
      (MS.pairStep ai i j).safes := by
  have hij : i ≠ j := by
    rintro rfl
    rw [h1] at h2
    obtain rfl := Option.some.inj h2
    exact (ssubset_irrefl _) hss
  have hjlen : j < ai.knowledge.length := (List.getElem?_eq_some_iff.1 h2).1
  have hsub := MS.subtractStep_eq h1 h2 hss
  have hsubj : (MS.subtractStep ai i j).knowledge[j]? =
      some ⟨s2.cells \ s1.cells, s2.count - s1.count⟩ := by
    rw [hsub]
    exact List.getElem?_set_self hjlen
  have hsubi : (MS.subtractStep ai i j).knowledge[i]? = some s1 := by
    rw [hsub]
    rw [List.getElem?_set_ne (fun h => hij h.symm)]
    exact h1
  refine ⟨hsubj, ?_⟩
  rw [MS.pairStep]
  refine MS.applyStep_spec (MS.subtractStep ai i j) i j s1 _ hsubi hsubj ?_
  intro c hc
  simp only [Finset.mem_sdiff]
  exact fun hcon => hcon.2 hc


set_option maxRecDepth 8000 in
/-- Claim C1's witness: the concrete 3x3 knowledge base `[sA, sB]` of the
claim — `sA` = {(0,0),(0,1)} count 1 inside `sB` = {(0,0),(0,1),(0,2)}
count 1 — where the derived sentence is `({(0,2)}, 0)` and the cell
`(0,2)` indeed ends in the safes set of the full pairwise pass. -/
theorem claim_C1_witness :
    (MS.aiC1.knowledge[0]? = some MS.sA ∧ MS.aiC1.knowledge[1]? = some MS.sB ∧
      MS.sA.cells ⊂ MS.sB.cells) ∧
    ((MS.subtractStep MS.aiC1 0 1).knowledge[1]? =
        some ⟨MS.sB.cells \ MS.sA.cells, MS.sB.count - MS.sA.count⟩ ∧
      (⟨MS.sB.cells \ MS.sA.cells, MS.sB.count - MS.sA.count⟩ : MS.Sentence).known_mines ⊆
        (MS.pairStep MS.aiC1 0 1).mines ∧
      (⟨MS.sB.cells \ MS.sA.cells, MS.sB.count - MS.sA.count⟩ : MS.Sentence).known_safes ⊆
        (MS.pairStep MS.aiC1 0 1).safes) ∧
    (0, 2) ∈ (MS.pairwisePass MS.aiC1).safes :=
  ⟨⟨rfl, rfl, by decide⟩,
   claim_C1_subset_resolution MS.aiC1 0 1 MS.sA MS.sB rfl rfl (by decide),
   by decide⟩

namespace MS

theorem sentOK_mark_safe {safes mines : Finset Cell} {t : Sentence} (c : Cell)
    (h : SentOK safes mines t) :
    SentOK (insert c safes) mines (t.mark_safe c) := by
  intro x hx
  unfold Sentence.mark_safe at hx
  split at hx
  · have hxt : x ∈ t.cells := Finset.mem_of_mem_erase hx
    have hxc : x ≠ c := Finset.ne_of_mem_erase hx
    exact ⟨by simp [Finset.mem_insert, hxc, (h x hxt).1], (h x hxt).2⟩
  · rename_i hc
    have hxc : x ≠ c := fun he => hc (he ▸ hx)
    exact ⟨by simp [Finset.mem_insert, hxc, (h x hx).1], (h x hx).2⟩

theorem sentOK_mark_mine {safes mines : Finset Cell} {t : Sentence} (c : Cell)
    (h : SentOK safes mines t) :
    SentOK safes (insert c mines) (t.mark_mine c) := by
  intro x hx
  unfold Sentence.mark_mine at hx
  split at hx
  · have hxt : x ∈ t.cells := Finset.mem_of_mem_erase hx
    have hxc : x ≠ c := Finset.ne_of_mem_erase hx
    exact ⟨(h x hxt).1, by simp [Finset.mem_insert, hxc, (h x hxt).2]⟩
  · rename_i hc
    have hxc : x ≠ c := fun he => hc (he ▸ hx)
    exact ⟨(h x hx).1, by simp [Finset.mem_insert, hxc, (h x hx).2]⟩

theorem inv_mark_safe {ai : AI} {c : Cell} (h : Inv ai) (hc : c ∉ ai.mines) :
    Inv (ai.mark_safe c) := by
  constructor
  · intro x hx
    rw [mark_safe_safes] at hx
    rw [mark_safe_mines]
    rcases Finset.mem_insert.1 hx with rfl | hx2
    · exact hc
    · exact h.1 x hx2
  · intro s hs
    rw [show (ai.mark_safe c).knowledge = ai.knowledge.map (fun t => t.mark_safe c)
      from rfl] at hs
    obtain ⟨t, ht, rfl⟩ := List.mem_map.1 hs
    rw [show (ai.mark_safe c).safes = insert c ai.safes from rfl,
      show (ai.mark_safe c).mines = ai.mines from rfl]
    exact sentOK_mark_safe c (h.2 t ht)

theorem inv_mark_mine {ai : AI} {c : Cell} (h : Inv ai) (hc : c ∉ ai.safes) :
    Inv (ai.mark_mine c) := by
  constructor
  · intro x hx
    rw [mark_mine_safes] at hx
    rw [mark_mine_mines]
    intro hmem
    rcases Finset.mem_insert.1 hmem with rfl | hx2
    · exact hc hx
    · exact h.1 x hx hx2
  · intro s hs
    rw [show (ai.mark_mine c).knowledge = ai.knowledge.map (fun t => t.mark_mine c)
      from rfl] at hs
    obtain ⟨t, ht, rfl⟩ := List.mem_map.1 hs
    rw [show (ai.mark_mine c).safes = ai.safes from rfl,
      show (ai.mark_mine c).mines = insert c ai.mines from rfl]
    exact sentOK_mark_mine c (h.2 t ht)

theorem inv_applySafes {ai : AI} {l : List Cell} (h : Inv ai)
    (hl : ∀ c ∈ l, c ∉ ai.mines) : Inv (applySafes ai l) := by
  induction l generalizing ai with
  | nil => exact h
  | cons c rest ih =>
    rw [applySafes, List.foldl_cons]
    refine ih (inv_mark_safe h (hl c (List.mem_cons_self _ _))) ?_
    intro x hx
    rw [mark_safe_mines]
    exact hl x (List.mem_cons_of_mem _ hx)

theorem inv_applyMines {ai : AI} {l : List Cell} (h : Inv ai)
    (hl : ∀ c ∈ l, c ∉ ai.safes) : Inv (applyMines ai l) := by
  induction l generalizing ai with
  | nil => exact h
  | cons c rest ih =>
    rw [applyMines, List.foldl_cons]
    refine ih (inv_mark_mine h (hl c (List.mem_cons_self _ _))) ?_
    intro x hx
    rw [mark_mine_safes]
    exact hl x (List.mem_cons_of_mem _ hx)

theorem sentOK_getD {ai : AI} (h : Inv ai) (k : Nat) :
    SentOK ai.safes ai.mines (ai.knowledge.getD k default) := by
  by_cases hk : k < ai.knowledge.length
  · refine h.2 _ ?_
    rw [List.getD_eq_getElem?_getD, List.getElem?_eq_getElem hk]
    exact List.getElem_mem hk
  · rw [List.getD_eq_getElem?_getD, List.getElem?_eq_none (by omega)]
    intro c hc
    cases Finset.not_mem_empty c hc

theorem inv_applyKS {ai : AI} (h : Inv ai) (k : Nat) : Inv (applyKS ai k) := by
  refine inv_applySafes h ?_
  intro c hc
  rw [toListC_mem] at hc
  exact (sentOK_getD h k c (known_safes_subset _ hc)).2

theorem inv_applyKM {ai : AI} (h : Inv ai) (k : Nat) : Inv (applyKM ai k) := by
  refine inv_applyMines h ?_
  intro c hc
  rw [toListC_mem] at hc
  exact (sentOK_getD h k c (known_mines_subset _ hc)).1

theorem inv_subtractStep {ai : AI} (h : Inv ai) (i j : Nat) :
    Inv (subtractStep ai i j) := by
  unfold subtractStep
  dsimp only
  split_ifs with h1 h2
  · constructor
    · exact h.1
    · intro s hs
      rcases List.mem_or_eq_of_mem_set hs with hmem | rfl
      · exact h.2 s hmem
      · intro c hc
        exact sentOK_getD h j c (Finset.mem_sdiff.1 hc).1
  · constructor
    · exact h.1
    · intro s hs
      rcases List.mem_or_eq_of_mem_set hs with hmem | rfl
      · exact h.2 s hmem
      · intro c hc
        exact sentOK_getD h i c (Finset.mem_sdiff.1 hc).1
  · exact h

theorem inv_pairStep {ai : AI} (h : Inv ai) (i j : Nat) :
    Inv (pairStep ai i j) := by
  rw [pairStep, applyStep]
  exact inv_applyKS (inv_applyKS (inv_applyKM (inv_applyKM
    (inv_subtractStep h i j) i) j) i) j

theorem foldl_inv {α : Type} (P : AI → Prop) (f : AI → α → AI)
    (hf : ∀ a x, P a → P (f a x)) :
    ∀ (l : List α) (a : AI), P a → P (l.foldl f a) := by
  intro l
  induction l with
  | nil => exact fun a ha => ha
  | cons x rest ih => exact fun a ha => ih _ (hf a x ha)

theorem inv_pairwisePass {ai : AI} (h : Inv ai) : Inv (pairwisePass ai) := by
  rw [pairwisePass]
  refine foldl_inv Inv _ ?_ _ ai h
  intro a x ha
  exact foldl_inv Inv _ (fun a2 y ha2 => inv_pairStep ha2 x y) _ a ha

end MS

/-- Claim C4: for every sentence, `known_mines` returns `cells` exactly
when `|cells| == count` (else the empty set), `known_safes` returns
`cells` exactly when `count == 0` (else the empty set); both are pure
functions of the sentence, which is returned unchanged. -/
theorem claim_C4_sentence_queries (s : MS.Sentence) :
    (s.known_mines = if (s.cells.card : Int) = s.count then s.cells else ∅) ∧
    (s.known_safes = if s.count = 0 then s.cells else ∅) := by
  unfold MS.Sentence.known_mines MS.Sentence.known_safes
  constructor <;> split_ifs <;> simp_all

namespace MS

theorem mineLoop_some_card (target : Nat) :
    ∀ (picks : List Cell) (s s2 : Finset Cell),
      mineLoop target picks s = some s2 → s2.card = target := by
  intro picks
  induction picks with
  | nil =>
    intro s s2 h
    rw [mineLoop] at h
    split at h
    · obtain rfl := Option.some.inj h
      assumption
    · cases h
  | cons c rest ih =>
    intro s s2 h
    rw [mineLoop] at h
    split at h
    · obtain rfl := Option.some.inj h
      assumption
    · exact ih _ _ h

theorem mineLoop_none (height width target : Nat) (hlt : height * width < target) :
    ∀ (picks : List Cell) (s : Finset Cell),
      (∀ c ∈ picks, c.1 < height ∧ c.2 < width) →
      s ⊆ Finset.range height ×ˢ Finset.range width →
      mineLoop target picks s = none := by
  intro picks
  induction picks with
  | nil =>
    intro s hp hs
    rw [mineLoop]
    rw [if_neg ?_]
    have := Finset.card_le_card hs
    rw [Finset.card_product] at this
    simp at this
    omega
  | cons c rest ih =>
    intro s hp hs
    rw [mineLoop]
    rw [if_neg ?_]
    · show mineLoop target rest (if c ∈ s then s else insert c s) = none
      by_cases hcs : c ∈ s
      · rw [if_pos hcs]
        exact ih _ (fun x hx => hp x (List.mem_cons_of_mem _ hx)) hs
      · rw [if_neg hcs]
        refine ih _ (fun x hx => hp x (List.mem_cons_of_mem _ hx)) ?_
        intro x hx
        rcases Finset.mem_insert.1 hx with rfl | hx2
        · have hc := hp x (List.mem_cons_self _ _)
          simp only [Finset.mem_product, Finset.mem_range]
          exact ⟨hc.1, hc.2⟩
        · exact hs hx2
    · have := Finset.card_le_card hs
      rw [Finset.card_product] at this
      simp at this
      omega

end MS

/-- Claim C10: the constructor's rejection-sampling mine placement, driven
by an explicit stream of random picks, ends with exactly `target` mines
whenever it ends at all; and when `target > height * width` no finite
stream of in-range picks can make it terminate (`mineLoop` returns
`none` for every such stream). -/
theorem claim_C10_mine_placement (height width target : Nat) :
    (∀ picks s2, MS.mineLoop target picks ∅ = some s2 → s2.card = target) ∧
    (height * width < target →
      ∀ picks : List MS.Cell, (∀ c ∈ picks, c.1 < height ∧ c.2 < width) →
        MS.mineLoop target picks ∅ = none) :=
  ⟨fun picks s2 h => MS.mineLoop_some_card target picks ∅ s2 h,
   fun hlt picks hp => MS.mineLoop_none height width target hlt picks ∅ hp
     (by simp)⟩

/-- Claim C10's witness: on a 2x2 board, asking for 5 mines exhausts even a
stream covering all four cells, while asking for 2 mines succeeds with
exactly 2 mines placed. -/
theorem claim_C10_witness :
    ((2 : Nat) * 2 < 5 ∧
      (∀ c ∈ [((0, 0) : MS.Cell), (1, 1), (0, 1), (1, 0)], c.1 < 2 ∧ c.2 < 2) ∧
      MS.mineLoop 5 [(0, 0), (1, 1), (0, 1), (1, 0)] ∅ = none) ∧
    (MS.mineLoop 2 [(0, 0), (1, 1)] ∅ = some {(1, 1), (0, 0)} ∧
      ({(1, 1), (0, 0)} : Finset MS.Cell).card = 2) :=
  ⟨⟨by decide, by decide,
    (claim_C10_mine_placement 2 2 5).2 (by decide) _ (by decide)⟩,
   ⟨rfl, (claim_C10_mine_placement 2 2 2).1 [(0, 0), (1, 1)] {(1, 1), (0, 0)} rfl⟩⟩

namespace MS

theorem applyMines_knowledge (ai : AI) (l : List Cell) :
    (applyMines ai l).knowledge =
      ai.knowledge.map (fun s => l.foldl Sentence.mark_mine s) := by
  induction l generalizing ai with
  | nil => simp [applyMines]
  | cons c rest ih =>
    have hstep : applyMines ai (c :: rest) = applyMines (ai.mark_mine c) rest := by
      rw [applyMines, applyMines, List.foldl_cons]
    rw [hstep, ih]
    show (ai.knowledge.map (fun s => s.mark_mine c)).map _ = _
    rw [List.map_map]
    simp [Function.comp_def, List.foldl_cons]

theorem getLastD_mem {l : List Sentence} (h : l ≠ []) (x : Sentence) :
    (l.getLast?).getD x ∈ l := by
  cases hl : l.getLast? with
  | none => exact absurd (List.getLast?_eq_none_iff.1 hl) h
  | some y =>
    show y ∈ l
    exact List.mem_of_mem_getLast? (hl ▸ rfl)

theorem inv_tail (ai2 : AI) (ns : Sentence) (p : Prop) [Decidable p]
    (h2 : Inv ai2) (hns : SentOK ai2.safes ai2.mines ns)
    (hp : ¬ p → ns.cells = ∅) :
    Inv (pairwisePass (applySafes
      (applyMines (if p then { ai2 with knowledge := ai2.knowledge ++ [ns] } else ai2)
        (toListC ns.known_mines))
      (toListC (if p
        then ((applyMines
            (if p then { ai2 with knowledge := ai2.knowledge ++ [ns] } else ai2)
            (toListC ns.known_mines)).knowledge.getLast?).getD ns
        else ns).known_safes))) := by
  refine inv_pairwisePass ?_
  by_cases hP : p
  · rw [if_pos hP, if_pos hP]
    have h3 : Inv { ai2 with knowledge := ai2.knowledge ++ [ns] } := by
      refine ⟨h2.1, ?_⟩
      intro s hs
      rcases List.mem_append.1 hs with hmem | hmem
      · exact h2.2 s hmem
      · rw [List.mem_singleton.1 hmem]
        exact hns
    have h4 : Inv (applyMines { ai2 with knowledge := ai2.knowledge ++ [ns] }
        (toListC ns.known_mines)) := by
      refine inv_applyMines h3 ?_
      intro c hc
      rw [toListC_mem] at hc
      exact (hns c (known_mines_subset _ hc)).1
    refine inv_applySafes h4 ?_
    intro c hc
    rw [toListC_mem] at hc
    have hne : (applyMines { ai2 with knowledge := ai2.knowledge ++ [ns] }
        (toListC ns.known_mines)).knowledge ≠ [] := by
      rw [applyMines_knowledge]
      simp
    have hcur := getLastD_mem hne ns
    have hOK := h4.2 _ hcur
    exact (hOK c (known_safes_subset _ hc)).2
  · rw [if_neg hP, if_neg hP]
    have hcells : ns.cells = ∅ := hp hP
    have h4 : Inv (applyMines ai2 (toListC ns.known_mines)) := by
      refine inv_applyMines h2 ?_
      intro c hc
      rw [toListC_mem] at hc
      have := known_mines_subset _ hc
      rw [hcells] at this
      cases Finset.not_mem_empty c this
    refine inv_applySafes h4 ?_
    intro c hc
    rw [toListC_mem] at hc
    have := known_safes_subset _ hc
    rw [hcells] at this
    cases Finset.not_mem_empty c this

theorem inv_add_knowledge {ai : AI} {cell : Cell} {count : Int} (h : Inv ai)
    (hc : cell ∉ ai.mines) : Inv (ai.add_knowledge cell count) := by
  have h1 : Inv { ai with moves_made := insert cell ai.moves_made } := h
  have h2 : Inv ({ ai with moves_made := insert cell ai.moves_made }.mark_safe cell) :=
    inv_mark_safe h1 hc
  refine inv_tail _ _ _ h2 ?_ ?_
  · intro c hcmem
    have hf := (Finset.mem_filter.1 hcmem).2
    exact ⟨hf.2, hf.1⟩
  · intro hnp
    exact Finset.card_eq_zero.1 (Nat.eq_zero_of_not_pos hnp)

end MS

namespace MS

theorem inv_init (h w : Nat) : Inv (AI.init h w) := by
  constructor
  · intro c hc
    cases Finset.not_mem_empty c hc
  · intro s hs
    cases hs

theorem inv_run {ai : AI} {l : List (Cell × Int)} (h : Inv ai)
    (hok : okCalls ai l = true) : Inv (ai.run l) := by
  induction l generalizing ai with
  | nil => exact h
  | cons p rest ih =>
    obtain ⟨c, k⟩ := p
    rw [okCalls, Bool.and_eq_true, Bool.not_eq_true', decide_eq_false_iff_not] at hok
    exact ih (inv_add_knowledge h hok.1) hok.2

end MS

set_option maxRecDepth 8000 in
/-- Claim C2's counterexample: the claim promises `safes ∩ mines = ∅` after
every call sequence, but calling `add_knowledge` on a cell the engine
already believes to be a mine marks it safe as well: on a 2x2 board,
after `add_knowledge((0,0), 3)` (which makes all three neighbours mines)
the call `add_knowledge((0,1), 0)` leaves `(0,1)` in both sets. -/
theorem claim_C2_counterexample :
    ((0, 1) : MS.Cell) ∈
      (((MS.AI.init 2 2).add_knowledge (0, 0) 3).add_knowledge (0, 1) 0).safes ∧
    ((0, 1) : MS.Cell) ∈
      (((MS.AI.init 2 2).add_knowledge (0, 0) 3).add_knowledge (0, 1) 0).mines ∧
    (((MS.AI.init 2 2).add_knowledge (0, 0) 3).add_knowledge (0, 1) 0).safes ∩
      (((MS.AI.init 2 2).add_knowledge (0, 0) 3).add_knowledge (0, 1) 0).mines ≠ ∅ := by
  have hs : ((0, 1) : MS.Cell) ∈
      (((MS.AI.init 2 2).add_knowledge (0, 0) 3).add_knowledge (0, 1) 0).safes := by
    decide!
  have hmn : ((0, 1) : MS.Cell) ∈
      (((MS.AI.init 2 2).add_knowledge (0, 0) 3).add_knowledge (0, 1) 0).mines := by
    decide!
  exact ⟨hs, hmn, Finset.ne_empty_of_mem (Finset.mem_inter.2 ⟨hs, hmn⟩)⟩

/-- Claim C2, amended: after any sequence of `add_knowledge` calls on a
fresh engine in which no queried cell is already believed to be a mine
at the moment of its call, `safes ∩ mines = ∅` holds. -/
theorem claim_C2_amended (h w : Nat) (l : List (MS.Cell × Int))
    (hok : MS.okCalls (MS.AI.init h w) l = true) :
    ((MS.AI.init h w).run l).safes ∩ ((MS.AI.init h w).run l).mines = ∅ := by
  have hinv := MS.inv_run (MS.inv_init h w) hok
  refine Finset.eq_empty_iff_forall_not_mem.2 ?_
  intro c hc
  rw [Finset.mem_inter] at hc
  exact hinv.1 c hc.1 hc.2

/-- Claim C2's witness: one `add_knowledge((0,0), 1)` call on a fresh 2x2
engine satisfies the side condition, and the resulting safes and mines
sets are disjoint. -/
theorem claim_C2_witness :
    MS.okCalls (MS.AI.init 2 2) [((0, 0), 1)] = true ∧
    ((MS.AI.init 2 2).run [((0, 0), 1)]).safes ∩
      ((MS.AI.init 2 2).run [((0, 0), 1)]).mines = ∅ :=
  ⟨rfl, claim_C2_amended 2 2 [((0, 0), 1)] rfl⟩

namespace MS

theorem sentM_mark_safe {M : Finset Cell} {t : Sentence} {c : Cell}
    (hc : c ∉ M) (h : t.count = (((t.cells ∩ M).card : Nat) : Int)) :
    (t.mark_safe c).count = ((((t.mark_safe c).cells ∩ M).card : Nat) : Int) := by
  unfold Sentence.mark_safe
  split
  · show t.count = (((t.cells.erase c ∩ M).card : Nat) : Int)
    rw [h]
    congr 2
    ext x
    simp only [Finset.mem_inter, Finset.mem_erase]
    constructor
    · exact fun hx => ⟨⟨fun he => hc (he ▸ hx.2), hx.1⟩, hx.2⟩
    · exact fun hx => ⟨hx.1.2, hx.2⟩
  · exact h

theorem sentM_mark_mine {M : Finset Cell} {t : Sentence} {c : Cell}
    (hc : c ∈ M) (h : t.count = (((t.cells ∩ M).card : Nat) : Int)) :
    (t.mark_mine c).count = ((((t.mark_mine c).cells ∩ M).card : Nat) : Int) := by
  unfold Sentence.mark_mine
  split
  · rename_i hmem
    show t.count - 1 = (((t.cells.erase c ∩ M).card : Nat) : Int)
    have hin : c ∈ t.cells ∩ M := Finset.mem_inter.2 ⟨hmem, hc⟩
    have heq : t.cells.erase c ∩ M = (t.cells ∩ M).erase c := by
      ext x
      simp only [Finset.mem_inter, Finset.mem_erase]
      tauto
    rw [h, heq, Finset.card_erase_of_mem hin]
    have hpos : 1 ≤ (t.cells ∩ M).card := Finset.card_pos.2 ⟨c, hin⟩
    push_cast [Nat.cast_sub hpos]
    ring
  · exact h

theorem sentM_known_mines {M : Finset Cell} {t : Sentence}
    (h : t.count = (((t.cells ∩ M).card : Nat) : Int)) :
    ∀ c ∈ t.known_mines, c ∈ M := by
  unfold Sentence.known_mines
  split
  · exact fun c hc => absurd hc (Finset.not_mem_empty c)
  · rename_i hne
    rw [not_ne_iff, h] at hne
    have hcard : (t.cells ∩ M).card = t.cells.card := by exact_mod_cast hne.symm
    have hsub : t.cells ∩ M = t.cells :=
      Finset.eq_of_subset_of_card_le Finset.inter_subset_left (by omega)
    intro c hc
    have : c ∈ t.cells ∩ M := hsub.symm ▸ hc
    exact (Finset.mem_inter.1 this).2

theorem sentM_known_safes {M : Finset Cell} {t : Sentence}
    (h : t.count = (((t.cells ∩ M).card : Nat) : Int)) :
    ∀ c ∈ t.known_safes, c ∉ M := by
  unfold Sentence.known_safes
  split
  · exact fun c hc => absurd hc (Finset.not_mem_empty c)
  · rename_i hne
    rw [not_ne_iff, h] at hne
    have hcard : (t.cells ∩ M).card = 0 := by exact_mod_cast hne
    have hemp : t.cells ∩ M = ∅ := Finset.card_eq_zero.1 hcard
    intro c hc hcM
    have : c ∈ t.cells ∩ M := Finset.mem_inter.2 ⟨hc, hcM⟩
    rw [hemp] at this
    exact Finset.not_mem_empty c this

theorem minv_mark_safe {M : Finset Cell} {ai : AI} {c : Cell} (h : MInv M ai)
    (hc : c ∉ M) : MInv M (ai.mark_safe c) := by
  refine ⟨?_, h.2.1, ?_⟩
  · intro x hx
    rw [mark_safe_safes] at hx
    rcases Finset.mem_insert.1 hx with rfl | hx2
    · exact hc
    · exact h.1 x hx2
  · intro s hs
    rw [show (ai.mark_safe c).knowledge = ai.knowledge.map (fun t => t.mark_safe c)
      from rfl] at hs
    obtain ⟨t, ht, rfl⟩ := List.mem_map.1 hs
    exact sentM_mark_safe hc (h.2.2 t ht)

theorem minv_mark_mine {M : Finset Cell} {ai : AI} {c : Cell} (h : MInv M ai)
    (hc : c ∈ M) : MInv M (ai.mark_mine c) := by
  refine ⟨h.1, ?_, ?_⟩
  · intro x hx
    rw [mark_mine_mines] at hx
    rcases Finset.mem_insert.1 hx with rfl | hx2
    · exact hc
    · exact h.2.1 x hx2
  · intro s hs
    rw [show (ai.mark_mine c).knowledge = ai.knowledge.map (fun t => t.mark_mine c)
      from rfl] at hs
    obtain ⟨t, ht, rfl⟩ := List.mem_map.1 hs
    exact sentM_mark_mine hc (h.2.2 t ht)

theorem minv_applySafes {M : Finset Cell} {ai : AI} {l : List Cell} (h : MInv M ai)
    (hl : ∀ c ∈ l, c ∉ M) : MInv M (applySafes ai l) := by
  induction l generalizing ai with
  | nil => exact h
  | cons c rest ih =>
    rw [applySafes, List.foldl_cons]
    exact ih (minv_mark_safe h (hl c (List.mem_cons_self _ _)))
      (fun x hx => hl x (List.mem_cons_of_mem _ hx))

theorem minv_applyMines {M : Finset Cell} {ai : AI} {l : List Cell} (h : MInv M ai)
    (hl : ∀ c ∈ l, c ∈ M) : MInv M (applyMines ai l) := by
  induction l generalizing ai with
  | nil => exact h
  | cons c rest ih =>
    rw [applyMines, List.foldl_cons]
    exact ih (minv_mark_mine h (hl c (List.mem_cons_self _ _)))
      (fun x hx => hl x (List.mem_cons_of_mem _ hx))

theorem sentM_getD {M : Finset Cell} {ai : AI} (h : MInv M ai) (k : Nat) :
    (ai.knowledge.getD k default).count =
      ((((ai.knowledge.getD k default).cells ∩ M).card : Nat) : Int) := by
  by_cases hk : k < ai.knowledge.length
  · refine h.2.2 _ ?_
    rw [List.getD_eq_getElem?_getD, List.getElem?_eq_getElem hk]
    exact List.getElem_mem hk
  · rw [List.getD_eq_getElem?_getD, List.getElem?_eq_none (by omega)]
    show (0 : Int) = (((∅ ∩ M : Finset Cell).card : Nat) : Int)
    rw [Finset.empty_inter]
    rfl

theorem minv_applyKS {M : Finset Cell} {ai : AI} (h : MInv M ai) (k : Nat) :
    MInv M (applyKS ai k) := by
  refine minv_applySafes h ?_
  intro c hc
  rw [toListC_mem] at hc
  exact sentM_known_safes (sentM_getD h k) c hc

theorem minv_applyKM {M : Finset Cell} {ai : AI} (h : MInv M ai) (k : Nat) :
    MInv M (applyKM ai k) := by
  refine minv_applyMines h ?_
  intro c hc
  rw [toListC_mem] at hc
  exact sentM_known_mines (sentM_getD h k) c hc

theorem sentM_sdiff {M : Finset Cell} {s1 s2 : Sentence}
    (h1 : s1.count = (((s1.cells ∩ M).card : Nat) : Int))
    (h2 : s2.count = (((s2.cells ∩ M).card : Nat) : Int))
    (hss : s1.cells ⊆ s2.cells) :
    s2.count - s1.count = ((((s2.cells \ s1.cells) ∩ M).card : Nat) : Int) := by
  have heq : (s2.cells \ s1.cells) ∩ M = (s2.cells ∩ M) \ (s1.cells ∩ M) := by
    ext x
    simp only [Finset.mem_inter, Finset.mem_sdiff]
    tauto
  have hsub : s1.cells ∩ M ⊆ s2.cells ∩ M :=
    Finset.inter_subset_inter hss (subset_refl M)
  rw [h1, h2, heq, Finset.card_sdiff hsub]
  have hle := Finset.card_le_card hsub
  push_cast [Nat.cast_sub hle]
  ring

theorem minv_subtractStep {M : Finset Cell} {ai : AI} (h : MInv M ai) (i j : Nat) :
    MInv M (subtractStep ai i j) := by
  unfold subtractStep
  dsimp only
  split_ifs with h1 h2
  · refine ⟨h.1, h.2.1, ?_⟩
    intro s hs
    rcases List.mem_or_eq_of_mem_set hs with hmem | rfl
    · exact h.2.2 s hmem
    · exact sentM_sdiff (sentM_getD h i) (sentM_getD h j) (subset_of_ssubset h1)
  · refine ⟨h.1, h.2.1, ?_⟩
    intro s hs
    rcases List.mem_or_eq_of_mem_set hs with hmem | rfl
    · exact h.2.2 s hmem
    · exact sentM_sdiff (sentM_getD h j) (sentM_getD h i) (subset_of_ssubset h2)
  · exact h

theorem minv_pairStep {M : Finset Cell} {ai : AI} (h : MInv M ai) (i j : Nat) :
    MInv M (pairStep ai i j) := by
  rw [pairStep, applyStep]
  exact minv_applyKS (minv_applyKS (minv_applyKM (minv_applyKM
    (minv_subtractStep h i j) i) j) i) j

theorem minv_pairwisePass {M : Finset Cell} {ai : AI} (h : MInv M ai) :
    MInv M (pairwisePass ai) := by
  rw [pairwisePass]
  refine foldl_inv (MInv M) _ ?_ _ ai h
  intro a x ha
  exact foldl_inv (MInv M) _ (fun a2 y ha2 => minv_pairStep ha2 x y) _ a ha

theorem minv_tail (M : Finset Cell) (ai2 : AI) (ns : Sentence) (p : Prop)
    [Decidable p] (h2 : MInv M ai2)
    (hns : ns.count = (((ns.cells ∩ M).card : Nat) : Int)) :
    MInv M (pairwisePass (applySafes
      (applyMines (if p then { ai2 with knowledge := ai2.knowledge ++ [ns] } else ai2)
        (toListC ns.known_mines))
      (toListC (if p
        then ((applyMines
            (if p then { ai2 with knowledge := ai2.knowledge ++ [ns] } else ai2)
            (toListC ns.known_mines)).knowledge.getLast?).getD ns
        else ns).known_safes))) := by
  refine minv_pairwisePass ?_
  by_cases hP : p
  · rw [if_pos hP, if_pos hP]
    have h3 : MInv M { ai2 with knowledge := ai2.knowledge ++ [ns] } := by
      refine ⟨h2.1, h2.2.1, ?_⟩
      intro s hs
      rcases List.mem_append.1 hs with hmem | hmem
      · exact h2.2.2 s hmem
      · rw [List.mem_singleton.1 hmem]
        exact hns
    have h4 : MInv M (applyMines { ai2 with knowledge := ai2.knowledge ++ [ns] }
        (toListC ns.known_mines)) := by
      refine minv_applyMines h3 ?_
      intro c hc
      rw [toListC_mem] at hc
      exact sentM_known_mines hns c hc
    refine minv_applySafes h4 ?_
    intro c hc
    rw [toListC_mem] at hc
    have hne : (applyMines { ai2 with knowledge := ai2.knowledge ++ [ns] }
        (toListC ns.known_mines)).knowledge ≠ [] := by
      rw [applyMines_knowledge]
      simp
    have hcur := getLastD_mem hne ns
    exact sentM_known_safes (h4.2.2 _ hcur) c hc
  · rw [if_neg hP, if_neg hP]
    have h4 : MInv M (applyMines ai2 (toListC ns.known_mines)) := by
      refine minv_applyMines h2 ?_
      intro c hc
      rw [toListC_mem] at hc
      exact sentM_known_mines hns c hc
    refine minv_applySafes h4 ?_
    intro c hc
    rw [toListC_mem] at hc
    exact sentM_known_safes hns c hc

end MS

namespace MS

theorem count_copy_eq (M C mines safes : Finset Cell) (count : Int)
    (hcount : count = (((C ∩ M).card : Nat) : Int))
    (hm : ∀ c ∈ mines, c ∈ M) (hs : ∀ c ∈ safes, c ∉ M) :
    count - (((C.filter (fun c => c ∈ mines)).card : Nat) : Int) =
      (((C.filter (fun c => c ∉ mines ∧ c ∉ safes) ∩ M).card : Nat) : Int) := by
  have hA : C.filter (fun c => c ∈ mines) ⊆ C ∩ M := by
    intro x hx
    rw [Finset.mem_filter] at hx
    exact Finset.mem_inter.2 ⟨hx.1, hm x hx.2⟩
  have hFM : C.filter (fun c => c ∉ mines ∧ c ∉ safes) ∩ M =
      (C ∩ M) \ C.filter (fun c => c ∈ mines) := by
    ext x
    simp only [Finset.mem_inter, Finset.mem_filter, Finset.mem_sdiff]
    constructor
    · rintro ⟨⟨hxC, hxm, _⟩, hxM⟩
      exact ⟨⟨hxC, hxM⟩, fun hcon => hxm hcon.2⟩
    · rintro ⟨⟨hxC, hxM⟩, hxn⟩
      exact ⟨⟨hxC, fun hm2 => hxn ⟨hxC, hm2⟩, fun hs2 => hs x hs2 hxM⟩, hxM⟩
  rw [hcount, hFM, Finset.card_sdiff hA]
  have hle := Finset.card_le_card hA
  push_cast [Nat.cast_sub hle]
  ring

theorem minv_add_knowledge {M : Finset Cell} {ai : AI} {cell : Cell} {count : Int}
    (h : MInv M ai) (hcell : cell ∉ M)
    (hcount : count =
      (((adjacentCells ai.height ai.width cell ∩ M).card : Nat) : Int)) :
    MInv M (ai.add_knowledge cell count) := by
  have h1 : MInv M { ai with moves_made := insert cell ai.moves_made } := h
  have h2 : MInv M
      ({ ai with moves_made := insert cell ai.moves_made }.mark_safe cell) :=
    minv_mark_safe h1 hcell
  refine minv_tail M _ _ _ h2 ?_
  exact count_copy_eq M _ _ _ count hcount h2.2.1 h2.1

theorem minv_init (M : Finset Cell) (h w : Nat) : MInv M (AI.init h w) := by
  refine ⟨?_, ?_, ?_⟩
  · intro c hc
    cases Finset.not_mem_empty c hc
  · intro c hc
    cases Finset.not_mem_empty c hc
  · intro s hs
    cases hs

theorem minv_run {M : Finset Cell} {ai : AI} {l : List (Cell × Int)}
    (h : MInv M ai) (hcons : consistentCalls M ai l = true) : MInv M (ai.run l) := by
  induction l generalizing ai with
  | nil => exact h
  | cons p rest ih =>
    obtain ⟨c, k⟩ := p
    rw [consistentCalls, Bool.and_eq_true, Bool.and_eq_true, Bool.not_eq_true',
      decide_eq_false_iff_not, beq_iff_eq] at hcons
    exact ih (minv_add_knowledge h hcons.1.1 hcons.1.2) hcons.2

end MS

set_option maxRecDepth 4000 in
/-- Claim C3's counterexample: the claim promises `0 <= count <= |cells|`
for every stored sentence after every call sequence, but the engine
stores whatever count it is told: `add_knowledge((0,0), 5)` on a fresh
2x2 engine leaves the sentence `({(0,1),(1,0),(1,1)}, 5)` in the
knowledge base, with `count = 5 > 3 = |cells|`. -/
theorem claim_C3_counterexample :
    ((MS.AI.init 2 2).add_knowledge (0, 0) 5).knowledge.length = 1 ∧
    (((MS.AI.init 2 2).add_knowledge (0, 0) 5).knowledge.getD 0 default).count = 5 ∧
    (((MS.AI.init 2 2).add_knowledge (0, 0) 5).knowledge.getD 0
      default).cells.card = 3 ∧
    ¬((((MS.AI.init 2 2).add_knowledge (0, 0) 5).knowledge.getD 0 default).count ≤
      (((((MS.AI.init 2 2).add_knowledge (0, 0) 5).knowledge.getD 0
        default).cells.card : Nat) : Int)) := by
  refine ⟨by decide!, by decide!, by decide!, ?_⟩
  intro hle
  have h1 : (((MS.AI.init 2 2).add_knowledge (0, 0) 5).knowledge.getD 0
      default).count = 5 := by decide!
  have h2 : (((MS.AI.init 2 2).add_knowledge (0, 0) 5).knowledge.getD 0
      default).cells.card = 3 := by decide!
  rw [h1, h2] at hle
  omega

/-- Claim C3, amended: after any sequence of `add_knowledge` calls on a
fresh engine that is consistent with some ground-truth mine set `M`
(each queried cell is not a mine and each reported count is the true
number of adjacent mines, as the game driver guarantees), every sentence
in the knowledge base satisfies `0 <= count <= |cells|`. -/
theorem claim_C3_amended (M : Finset MS.Cell) (h w : Nat)
    (l : List (MS.Cell × Int))
    (hcons : MS.consistentCalls M (MS.AI.init h w) l = true) :
    ∀ s ∈ ((MS.AI.init h w).run l).knowledge,
      0 ≤ s.count ∧ s.count ≤ ((s.cells.card : Nat) : Int) := by
  have hinv := MS.minv_run (MS.minv_init M h w) hcons
  intro s hs
  have hc := hinv.2.2 s hs
  constructor
  · rw [hc]
    exact Int.natCast_nonneg _
  · rw [hc]
    exact_mod_cast Finset.card_le_card Finset.inter_subset_left

/-- Claim C3's witness: the single consistent call `add_knowledge((0,0), 1)`
on a fresh 3x3 engine with ground truth `M = {(1,1)}`; the stored
sentence satisfies the bounds. -/
theorem claim_C3_witness :
    MS.consistentCalls {(1, 1)} (MS.AI.init 3 3) [((0, 0), 1)] = true ∧
    ∀ s ∈ ((MS.AI.init 3 3).run [((0, 0), 1)]).knowledge,
      0 ≤ s.count ∧ s.count ≤ ((s.cells.card : Nat) : Int) :=
  ⟨by decide!, claim_C3_amended {(1, 1)} 3 3 [((0, 0), 1)] (by decide!)⟩
